import Mathlib

/-!
# Verification of the FAO_DAG evaluation engine (`src/FAO_DAG.hpp`)

Shallow embedding of the C++ class `FAO_DAG`:

* C++ `FAO*` node pointers are modelled as `Nat` identifiers; the edge table
  `std::map<int, std::pair<FAO*, FAO*>>` becomes a total function
  `Nat → Nat × Nat` (edge id ↦ (source, destination)); `std::map` lookups with
  `operator[]` default-construct missing entries, which the total-function
  model reflects.
* The per-node mutable buffers `input_data` / `output_data` (gsl vectors of
  `double`) are modelled as `List Int` values — the engine itself only moves
  scalars around without arithmetic, so the scalar type is irrelevant to the
  claims and is fixed to `Int` to keep everything decidable.
* `std::queue` is a `List` used FIFO (push at the back, pop at the front);
  the readiness counters `std::map<FAO*, size_t> eval_map` become a total
  function `Nat → Nat` (defaulting to 0, like `operator[]`).
* The unbounded C++ `while` loop of `traverse_graph` is given explicit fuel;
  the theorems show that `nodes.length` fuel always suffices under the
  declared graph invariants.
* The `FAO` node class itself lives in `FAO.hpp`, which is not among the
  sources; its fields and capabilities are modelled from the spec (see the
  doc comment on `FAO`).
-/

set_option maxHeartbeats 1000000

namespace FAODag

/-- Per-node data of an `FAO` node.  Modelled from the spec: `FAO.hpp` is not
part of the sources, so the node capability interface is reproduced from the
spec's node contract and from the exact accesses `FAO_DAG.hpp` makes:
ordered edge-id lists `input_edges` / `output_edges`, per-slot declared
shapes `input_sizes` / `output_sizes`, offset maps `input_offsets` /
`output_offsets` (edge id ↦ element offset), allocated buffer lengths
`input_len` / `output_len`, the forward/adjoint kernels (`FAO::forward_eval`
reads the input buffer and writes the output buffer; `FAO::adjoint_eval` the
reverse), and the shape-to-element-count conversion `get_elem_length`. -/
structure FAO where
  input_edges : List Nat
  output_edges : List Nat
  input_sizes : List (List Nat)
  output_sizes : List (List Nat)
  input_offsets : Nat → Nat
  output_offsets : Nat → Nat
  input_len : Nat
  output_len : Nat
  forward_kernel : List Int → List Int
  adjoint_kernel : List Int → List Int
  get_elem_length : List Nat → Nat

/-- The immutable topology held by an `FAO_DAG`: the designated start and end
nodes, the edge table, and the node table (`fao`).  `nodes` lists the node
identifiers making up the graph. -/
structure Graph where
  nodes : List Nat
  start_node : Nat
  end_node : Nat
  edges : Nat → Nat × Nat
  fao : Nat → FAO

/-- Mutable buffer state: node id ↦ (input_data, output_data). -/
abbrev Bufs := Nat → List Int × List Int

def updateBufs (s : Bufs) (n : Nat) (b : List Int × List Int) : Bufs :=
  fun m => if m = n then b else s m

/-! ## The traversal scheduler (`FAO_DAG::traverse_graph`)

The direction-dependent choices made inside the loop (`if (forward) ...`)
are factored into the four helpers below, exactly mirroring the branches in
the source. -/

/-- The seed of the traversal: `start_node` if forward, `end_node` if not. -/
def seedNode (g : Graph) (fwd : Bool) : Nat :=
  if fwd then g.start_node else g.end_node

/-- `child_edges` in the source: the edge list processed when a node is
visited (`output_edges` forward, `input_edges` reverse). -/
def succEdges (g : Graph) (fwd : Bool) (v : Nat) : List Nat :=
  if fwd then (g.fao v).output_edges else (g.fao v).input_edges

/-- The edge list a node waits on (`input_edges` forward, `output_edges`
reverse); its length is `node_inputs_count` in the source. -/
def predEdges (g : Graph) (fwd : Bool) (v : Nat) : List Nat :=
  if fwd then (g.fao v).input_edges else (g.fao v).output_edges

/-- The far end of an edge as seen from the visiting node (`edge.second`
forward, `edge.first` reverse). -/
def eDst (g : Graph) (fwd : Bool) (e : Nat) : Nat :=
  if fwd then (g.edges e).2 else (g.edges e).1

/-- The delivering end of an edge (`edge.first` forward, `edge.second`
reverse). -/
def eSrc (g : Graph) (fwd : Bool) (e : Nat) : Nat :=
  if fwd then (g.edges e).1 else (g.edges e).2

/-- `node_inputs_count` in the source. -/
def needCount (g : Graph) (fwd : Bool) (v : Nat) : Nat :=
  (predEdges g fwd v).length

/-- `eval_map[n]++`. -/
def bump (em : Nat → Nat) (n : Nat) : Nat → Nat :=
  fun m => if m = n then em n + 1 else em m

/-- The inner `for (auto edge_idx : child_edges)` loop of `traverse_graph`:
increment the far node's arrival counter and enqueue it exactly when the
counter equals its direction-appropriate edge count. -/
def processEdges (g : Graph) (fwd : Bool) :
    List Nat → (Nat → Nat) → List Nat → (Nat → Nat) × List Nat
  | [], em, q => (em, q)
  | e :: es, em, q =>
    let n := eDst g fwd e
    let em1 := bump em n
    let q1 := if em1 n = needCount g fwd n then q ++ [n] else q
    processEdges g fwd es em1 q1

/-- State of one traversal: the ready queue, the arrival counters, the
buffer state mutated by the visitor, and the (ghost) list of nodes the
visitor has been applied to, in order. -/
structure TravState where
  queue : List Nat
  em : Nat → Nat
  bufs : Bufs
  visits : List Nat

/-- One iteration of the `while (!ready_queue.empty())` loop: pop the front
node, apply the visitor, bump its own counter, then process its
direction-appropriate edge list.  Identity on an empty queue. -/
def stepOnce (g : Graph) (fwd : Bool) (visitor : Nat → Bufs → Bufs)
    (st : TravState) : TravState :=
  match st.queue with
  | [] => st
  | curr :: rest =>
    let s1 := visitor curr st.bufs
    let em1 := bump st.em curr
    let p := processEdges g fwd (succEdges g fwd curr) em1 rest
    ⟨p.2, p.1, s1, st.visits ++ [curr]⟩

/-- The `while` loop of `traverse_graph`, with explicit fuel; `none` means
the fuel ran out before the queue emptied (the theorems show
`g.nodes.length` fuel always suffices under the graph invariants). -/
def runLoop (g : Graph) (fwd : Bool) (visitor : Nat → Bufs → Bufs) :
    Nat → TravState → Option TravState
  | fuel, st =>
    match st.queue with
    | [] => some st
    | _ :: _ =>
      match fuel with
      | 0 => none
      | fuel' + 1 => runLoop g fwd visitor fuel' (stepOnce g fwd visitor st)

/-! ## The `FAO_DAG` instance state and its operations -/

/-- The mutable members of an `FAO_DAG` object: `ready_queue`, `eval_map`,
the node buffers, and the timing instrumentation.  Elapsed wall-clock times
are modelled as rationals supplied by the environment. -/
structure Inst where
  ready_queue : List Nat
  eval_map : Nat → Nat
  bufs : Bufs
  forward_evals : Nat
  adjoint_evals : Nat
  total_forward_eval_time : ℚ
  total_adjoint_eval_time : ℚ

/-- `FAO_DAG::traverse_graph`: push the seed onto the member queue, run the
loop, and clear `eval_map` before returning. -/
def traverse_graph (g : Graph) (node_fn : Nat → Bufs → Bufs) (forward : Bool)
    (fuel : Nat) (inst : Inst) : Option Inst :=
  match runLoop g forward node_fn fuel
      ⟨inst.ready_queue ++ [seedNode g forward], inst.eval_map, inst.bufs, []⟩ with
  | none => none
  | some st =>
    some { inst with ready_queue := st.queue, eval_map := fun _ => 0, bufs := st.bufs }

/-- `gsl::vector_subvec_memcpy(dst, dstOff, src, srcOff, len)`: overwrite
`len` elements of `dst` starting at `dstOff` with the `len` elements of
`src` starting at `srcOff`. -/
def vector_subvec_memcpy (dst : List Int) (dstOff : Nat) (src : List Int)
    (srcOff : Nat) (len : Nat) : List Int :=
  dst.take dstOff ++ (src.drop srcOff).take len ++ dst.drop (dstOff + len)

/-- The copy loop of the `forward_eval` visitor: for each slot `i` holding
edge `edge_idx` of the node's `output_edges`, copy
`get_elem_length(output_sizes[i])` elements from the node's output buffer at
`output_offsets[edge_idx]` into the destination node's input buffer at the
destination's `input_offsets[edge_idx]`. -/
def copyEdgesOut (g : Graph) (node : Nat) : List (Nat × Nat) → Bufs → Bufs
  | [], s => s
  | (i, edge_idx) :: rest, s =>
    let nf := g.fao node
    let target := (g.edges edge_idx).2
    let len := nf.get_elem_length (nf.output_sizes.getD i [])
    let node_offset := nf.output_offsets edge_idx
    let target_offset := (g.fao target).input_offsets edge_idx
    let s1 := updateBufs s target
      (vector_subvec_memcpy (s target).1 target_offset (s node).2 node_offset len,
        (s target).2)
    copyEdgesOut g node rest s1

/-- The `node_eval` lambda of `FAO_DAG::forward_eval`: run the node's forward
kernel (output := kernel(input)), then propagate along `output_edges`. -/
def forward_node_eval (g : Graph) (node : Nat) (s : Bufs) : Bufs :=
  let s0 := updateBufs s node ((s node).1, (g.fao node).forward_kernel (s node).1)
  copyEdgesOut g node (g.fao node).output_edges.enum s0

/-- The copy loop of the `adjoint_eval` visitor: for each slot `i` holding
edge `edge_idx` of the node's `input_edges`, copy
`get_elem_length(input_sizes[i])` elements from the node's input buffer at
`input_offsets[edge_idx]` into the source node's output buffer at the
source's `output_offsets[edge_idx]`. -/
def copyEdgesIn (g : Graph) (node : Nat) : List (Nat × Nat) → Bufs → Bufs
  | [], s => s
  | (i, edge_idx) :: rest, s =>
    let nf := g.fao node
    let target := (g.edges edge_idx).1
    let len := nf.get_elem_length (nf.input_sizes.getD i [])
    let node_offset := nf.input_offsets edge_idx
    let target_offset := (g.fao target).output_offsets edge_idx
    let s1 := updateBufs s target
      ((s target).1,
        vector_subvec_memcpy (s target).2 target_offset (s node).1 node_offset len)
    copyEdgesIn g node rest s1

/-- The `node_eval` lambda of `FAO_DAG::adjoint_eval`: run the node's adjoint
kernel (input := kernel(output)), then propagate along `input_edges`. -/
def adjoint_node_eval (g : Graph) (node : Nat) (s : Bufs) : Bufs :=
  let s0 := updateBufs s node ((g.fao node).adjoint_kernel (s node).2, (s node).2)
  copyEdgesIn g node (g.fao node).input_edges.enum s0

/-- `FAO_DAG::forward_eval`: traverse forward with the evaluation visitor,
then bump the call counter and accumulate the elapsed time. -/
def forward_eval (g : Graph) (fuel : Nat) (elapsed : ℚ) (inst : Inst) :
    Option Inst :=
  match traverse_graph g (forward_node_eval g) true fuel inst with
  | none => none
  | some i =>
    some { i with forward_evals := i.forward_evals + 1,
                  total_forward_eval_time := i.total_forward_eval_time + elapsed }

/-- `FAO_DAG::adjoint_eval`: traverse in reverse with the adjoint visitor,
then bump the call counter and accumulate the elapsed time. -/
def adjoint_eval (g : Graph) (fuel : Nat) (elapsed : ℚ) (inst : Inst) :
    Option Inst :=
  match traverse_graph g (adjoint_node_eval g) false fuel inst with
  | none => none
  | some i =>
    some { i with adjoint_evals := i.adjoint_evals + 1,
                  total_adjoint_eval_time := i.total_adjoint_eval_time + elapsed }

/-! ## Boundary accessors and host marshalling -/

/-- A reference to one of the two buffers of a node:
(node id, is-output-buffer). -/
abbrev BufRef := Nat × Bool

/-- `FAO_DAG::get_forward_input`: the start node's input buffer. -/
def get_forward_input (g : Graph) : BufRef := (g.start_node, false)

/-- `FAO_DAG::get_forward_output`: the end node's output buffer. -/
def get_forward_output (g : Graph) : BufRef := (g.end_node, true)

/-- `FAO_DAG::get_adjoint_input`, defined in the source as
`return get_forward_output();`. -/
def get_adjoint_input (g : Graph) : BufRef := get_forward_output g

/-- `FAO_DAG::get_adjoint_output`, defined in the source as
`return get_forward_input();`. -/
def get_adjoint_output (g : Graph) : BufRef := get_forward_input g

/-- Dereference a buffer reference in a buffer state. -/
def readRef (s : Bufs) (r : BufRef) : List Int :=
  if r.2 then (s r.1).2 else (s r.1).1

/-- Overwrite the referenced buffer. -/
def writeRef (s : Bufs) (r : BufRef) (v : List Int) : Bufs :=
  if r.2 then updateBufs s r.1 ((s r.1).1, v)
  else updateBufs s r.1 (v, (s r.1).2)

/-- `FAO_DAG::copy_input`: select the boundary input buffer for the given
direction, `assert` that the flat array has exactly the buffer's length
(`none` models the fatal assertion abort), then copy the whole array into
the buffer. -/
def copy_input (g : Graph) (input : List Int) (forward : Bool) (inst : Inst) :
    Option Inst :=
  let r := if forward then get_forward_input g else get_adjoint_input g
  if input.length = (readRef inst.bufs r).length then
    some { inst with bufs := writeRef inst.bufs r input }
  else none

/-- `FAO_DAG::copy_output`: select the boundary output buffer for the given
direction, `assert` the length matches (`none` models the abort), then copy
the whole buffer out into the flat array (returned). -/
def copy_output (g : Graph) (output : List Int) (forward : Bool) (inst : Inst) :
    Option (List Int) :=
  let r := if forward then get_forward_output g else get_adjoint_output g
  if output.length = (readRef inst.bufs r).length then
    some (readRef inst.bufs r)
  else none

/-! ## Construction, teardown, instrumentation -/

/-- Modelled from the spec: `FAO::alloc_data` and `FAO::init_offset_maps`
(in the missing `FAO.hpp`) allocate the node's zero-filled input and output
buffers of its declared lengths; the offset maps are static data in this
embedding (fields of `FAO`). -/
def allocVisitor (g : Graph) (node : Nat) (s : Bufs) : Bufs :=
  updateBufs s node
    (List.replicate (g.fao node).input_len 0, List.replicate (g.fao node).output_len 0)

/-- Modelled from the spec: `FAO::free_data` releases the node's buffers. -/
def freeVisitor (node : Nat) (s : Bufs) : Bufs :=
  updateBufs s node ([], [])

/-- The all-zero instance an `FAO_DAG` starts from: empty queue, empty
counter map, no buffers, zeroed instrumentation. -/
def initialInst : Inst :=
  ⟨[], fun _ => 0, fun _ => ([], []), 0, 0, 0, 0⟩

/-- The `FAO_DAG` constructor: starting from the zero instance, traverse the
graph once (forward) applying the allocation visitor. -/
def mkFAO_DAG (g : Graph) (fuel : Nat) : Option Inst :=
  traverse_graph g (allocVisitor g) true fuel initialInst

/-- IEEE-flavoured average: dividing by a zero call count yields a
non-finite value (NaN or infinity), modelled as `none`; otherwise the exact
rational average. -/
def averageTime (total : ℚ) (count : Nat) : Option ℚ :=
  if count = 0 then none else some (total / count)

/-- The `FAO_DAG` destructor: report the call counts and average times
(computed by dividing the cumulative time by the call count, with no guard
on the count), then traverse the graph once applying the deallocation
visitor.  Returns the report together with the post-teardown instance. -/
def destructFAO_DAG (g : Graph) (fuel : Nat) (inst : Inst) :
    Option ((Nat × Option ℚ) × (Nat × Option ℚ) × Inst) :=
  let reportF := (inst.forward_evals,
    averageTime inst.total_forward_eval_time inst.forward_evals)
  let reportA := (inst.adjoint_evals,
    averageTime inst.total_adjoint_eval_time inst.adjoint_evals)
  match traverse_graph g (fun n s => freeVisitor n s) true fuel inst with
  | none => none
  | some i => some (reportF, reportA, i)

/-- One host-facing evaluation call. -/
inductive DagOp where
  | fwdEval (elapsed : ℚ)
  | adjEval (elapsed : ℚ)

def applyOp (g : Graph) (fuel : Nat) : DagOp → Inst → Option Inst
  | .fwdEval t, i => forward_eval g fuel t i
  | .adjEval t, i => adjoint_eval g fuel t i

/-- A consecutive sequence of evaluation calls on the same instance. -/
def runOps (g : Graph) (fuel : Nat) : List DagOp → Inst → Option Inst
  | [], i => some i
  | op :: ops, i =>
    match applyOp g fuel op i with
    | none => none
    | some i2 => runOps g fuel ops i2

/-! ## Basic properties of the loop -/

/-- The scheduler-visible part of a traversal state: the visitor can only
influence `bufs`, so queue, counters and visit order are functions of this
projection alone. -/
def schedOf (st : TravState) : List Nat × (Nat → Nat) × List Nat :=
  (st.queue, st.em, st.visits)

theorem schedOf_stepOnce (g : Graph) (fwd : Bool) (vis₁ vis₂ : Nat → Bufs → Bufs)
    (st₁ st₂ : TravState) (h : schedOf st₁ = schedOf st₂) :
    schedOf (stepOnce g fwd vis₁ st₁) = schedOf (stepOnce g fwd vis₂ st₂) := by
  obtain ⟨q₁, em₁, s₁, v₁⟩ := st₁
  obtain ⟨q₂, em₂, s₂, v₂⟩ := st₂
  simp only [schedOf, Prod.mk.injEq] at h
  obtain ⟨hq, hem, hv⟩ := h
  subst hq; subst hem; subst hv
  cases q₁ with
  | nil => simp [stepOnce, schedOf]
  | cons c rest => simp [stepOnce, schedOf]

/-- The schedule computed by `runLoop` does not depend on the visitor or on
the buffer contents. -/
theorem runLoop_schedOf (g : Graph) (fwd : Bool) (vis₁ vis₂ : Nat → Bufs → Bufs) :
    ∀ fuel st₁ st₂, schedOf st₁ = schedOf st₂ →
      Option.map schedOf (runLoop g fwd vis₁ fuel st₁) =
        Option.map schedOf (runLoop g fwd vis₂ fuel st₂) := by
  intro fuel
  induction fuel with
  | zero =>
    intro st₁ st₂ h
    have hq : st₁.queue = st₂.queue := congrArg (fun p => p.1) h
    cases h1 : st₁.queue with
    | nil => simp [runLoop, h1, hq ▸ h1, ← hq, h]
    | cons c rest => simp [runLoop, h1, ← hq, h1]
  | succ n ih =>
    intro st₁ st₂ h
    have hq : st₁.queue = st₂.queue := congrArg (fun p => p.1) h
    cases h1 : st₁.queue with
    | nil => simp [runLoop, h1, ← hq, h1, h]
    | cons c rest =>
      have h2 : st₂.queue = c :: rest := hq ▸ h1
      simp only [runLoop, h1, h2]
      exact ih _ _ (schedOf_stepOnce g fwd vis₁ vis₂ st₁ st₂ h)

/-- A successful `runLoop` only returns once the ready queue is empty. -/
theorem runLoop_some_queue_nil (g : Graph) (fwd : Bool) (vis : Nat → Bufs → Bufs) :
    ∀ fuel st st', runLoop g fwd vis fuel st = some st' → st'.queue = [] := by
  intro fuel
  induction fuel with
  | zero =>
    rintro ⟨q, em, s, v⟩ st' h
    cases q with
    | nil => simp only [runLoop] at h; injection h with h2; subst h2; rfl
    | cons c rest => simp [runLoop] at h
  | succ n ih =>
    rintro ⟨q, em, s, v⟩ st' h
    cases q with
    | nil => simp only [runLoop] at h; injection h with h2; subst h2; rfl
    | cons c rest =>
      simp only [runLoop] at h
      exact ih _ _ h

/-! ## Concrete example graphs used by the witnesses -/

/-- An identity node with no edges and unit-length buffers. -/
def idFAO : FAO :=
  ⟨[], [], [], [], fun _ => 0, fun _ => 0, 1, 1, fun x => x, fun x => x,
    fun s => s.prod⟩

/-- A one-node identity graph: node 0 is both start and end. -/
def egSingle : Graph :=
  ⟨[0], 0, 0, fun _ => (0, 0), fun _ => idFAO⟩

/-- An instance over `egSingle` with two-element boundary buffers. -/
def egInst : Inst :=
  ⟨[], fun _ => 0, fun _ => ([0, 0], [0, 0]), 0, 0, 0, 0⟩

/-! ## Buffer segments and properties of `vector_subvec_memcpy` -/

/-- The `len` elements of a buffer starting at `off`. -/
def bufSeg (b : List Int) (off len : Nat) : List Int :=
  (b.drop off).take len

theorem length_bufSeg (b : List Int) (off len : Nat) (h : off + len ≤ b.length) :
    (bufSeg b off len).length = len := by
  simp [bufSeg]
  omega

theorem length_vector_subvec_memcpy (dst src : List Int) (o so len : Nat)
    (h1 : o + len ≤ dst.length) (h2 : so + len ≤ src.length) :
    (vector_subvec_memcpy dst o src so len).length = dst.length := by
  simp [vector_subvec_memcpy]
  omega

/-- An in-range copy puts exactly the source segment at the destination
offset. -/
theorem bufSeg_memcpy_self (dst src : List Int) (o so len : Nat)
    (h1 : o + len ≤ dst.length) (h2 : so + len ≤ src.length) :
    bufSeg (vector_subvec_memcpy dst o src so len) o len = bufSeg src so len := by
  have hA : (dst.take o).length = o := by simp; omega
  have hw : ((src.drop so).take len).length = len := by simp; omega
  simp only [bufSeg, vector_subvec_memcpy]
  rw [List.append_assoc]
  rw [List.drop_append_eq_append_drop, List.drop_of_length_le (le_of_eq hA), hA,
    Nat.sub_self, List.drop_zero, List.nil_append, List.take_append_eq_append_take,
    List.take_of_length_le (le_of_eq hw), hw, Nat.sub_self, List.take_zero,
    List.append_nil]

/-- An in-range copy leaves any disjoint region of the destination
untouched. -/
theorem bufSeg_memcpy_frame (dst src : List Int) (o so len o2 len2 : Nat)
    (h1 : o + len ≤ dst.length) (h2 : so + len ≤ src.length)
    (hdisj : o2 + len2 ≤ o ∨ o + len ≤ o2) :
    bufSeg (vector_subvec_memcpy dst o src so len) o2 len2 = bufSeg dst o2 len2 := by
  have hA : (dst.take o).length = o := by simp; omega
  have hw : ((src.drop so).take len).length = len := by simp; omega
  rcases hdisj with hL | hR
  · simp only [bufSeg, vector_subvec_memcpy]
    rw [List.append_assoc]
    rw [List.drop_append_eq_append_drop, List.take_append_eq_append_take]
    have hlen2 : len2 - ((dst.take o).drop o2).length = 0 := by simp; omega
    rw [hlen2, List.take_zero, List.append_nil, List.drop_take]
    rw [List.take_take, min_eq_left (by omega)]
  · simp only [bufSeg, vector_subvec_memcpy]
    rw [List.drop_append_eq_append_drop]
    have hAw : ((dst.take o) ++ ((src.drop so).take len)).length = o + len := by
      simp; omega
    rw [List.drop_of_length_le (by omega : (dst.take o ++ (src.drop so).take len).length ≤ o2),
      List.nil_append, hAw, List.drop_drop]
    congr 2
    omega

/-! ## Flip duality between the forward and adjoint propagation loops -/

def flipPair (b : List Int × List Int) : List Int × List Int := (b.2, b.1)

def flipBufs (s : Bufs) : Bufs := fun v => flipPair (s v)

/-- Swap the input/output roles of a node. -/
def flipFAO (f : FAO) : FAO :=
  ⟨f.output_edges, f.input_edges, f.output_sizes, f.input_sizes,
    f.output_offsets, f.input_offsets, f.output_len, f.input_len,
    f.adjoint_kernel, f.forward_kernel, f.get_elem_length⟩

/-- Reverse every edge and swap the input/output roles of every node. -/
def flipGraph (g : Graph) : Graph :=
  ⟨g.nodes, g.end_node, g.start_node, fun e => ((g.edges e).2, (g.edges e).1),
    fun v => flipFAO (g.fao v)⟩

theorem flipBufs_flipBufs (s : Bufs) : flipBufs (flipBufs s) = s := rfl

theorem flipBufs_updateBufs (s : Bufs) (n : Nat) (b : List Int × List Int) :
    flipBufs (updateBufs s n b) = updateBufs (flipBufs s) n (flipPair b) := by
  funext v
  simp only [flipBufs, updateBufs]
  split <;> rfl

/-- The adjoint copy loop is the forward copy loop of the flipped graph. -/
theorem copyEdgesIn_eq_flip (g : Graph) (node : Nat) :
    ∀ pairs s, copyEdgesIn g node pairs s =
      flipBufs (copyEdgesOut (flipGraph g) node pairs (flipBufs s)) := by
  intro pairs
  induction pairs with
  | nil => intro s; rfl
  | cons p rest ih =>
    intro s
    obtain ⟨i, e⟩ := p
    simp only [copyEdgesIn, copyEdgesOut]
    rw [ih]
    rw [flipBufs_updateBufs]
    rfl

/-- The adjoint visitor is the forward visitor of the flipped graph. -/
theorem adjoint_node_eval_eq_flip (g : Graph) (node : Nat) (s : Bufs) :
    adjoint_node_eval g node s =
      flipBufs (forward_node_eval (flipGraph g) node (flipBufs s)) := by
  simp only [adjoint_node_eval, forward_node_eval]
  rw [copyEdgesIn_eq_flip]
  rw [flipBufs_updateBufs]
  rfl

/-! ## Characterisation of the forward propagation loop -/

/-- Destination of a forward copy along edge `e` (`edges[e].second`). -/
def fwdTgt (g : Graph) (e : Nat) : Nat := (g.edges e).2

/-- Offset in the destination's input buffer (`target->input_offsets[e]`). -/
def fwdTOff (g : Graph) (e : Nat) : Nat := (g.fao (fwdTgt g e)).input_offsets e

/-- Offset in the sending node's output buffer (`node->output_offsets[e]`). -/
def fwdNOff (g : Graph) (node e : Nat) : Nat := (g.fao node).output_offsets e

/-- The copied element count for slot `i`:
`node->get_elem_length(node->output_sizes[i])` — determined solely by the
sending node's declared shape. -/
def fwdLen (g : Graph) (node i : Nat) : Nat :=
  (g.fao node).get_elem_length ((g.fao node).output_sizes.getD i [])

/-- One unfolding step of the forward copy loop. -/
theorem copyEdgesOut_cons (g : Graph) (node i e : Nat)
    (rest : List (Nat × Nat)) (s : Bufs) :
    copyEdgesOut g node ((i, e) :: rest) s =
      copyEdgesOut g node rest (updateBufs s (fwdTgt g e)
        (vector_subvec_memcpy (s (fwdTgt g e)).1 (fwdTOff g e) (s node).2
            (fwdNOff g node e) (fwdLen g node i),
          (s (fwdTgt g e)).2)) := rfl

/-- The copy loop never modifies any output buffer. -/
theorem copyEdgesOut_out (g : Graph) (node : Nat) :
    ∀ pairs s v, ((copyEdgesOut g node pairs s) v).2 = (s v).2 := by
  intro pairs
  induction pairs with
  | nil => intro s v; rfl
  | cons p rest ih =>
    intro s v
    obtain ⟨i, e⟩ := p
    rw [copyEdgesOut_cons, ih]
    by_cases hv : v = fwdTgt g e <;> simp [updateBufs, hv]

/-- The copy loop never modifies the input buffer of a node that is not the
destination of one of its edges. -/
theorem copyEdgesOut_in_untouched (g : Graph) (node : Nat) :
    ∀ pairs s v, (∀ p ∈ pairs, fwdTgt g p.2 ≠ v) →
      ((copyEdgesOut g node pairs s) v).1 = (s v).1 := by
  intro pairs
  induction pairs with
  | nil => intro s v _; rfl
  | cons p rest ih =>
    intro s v hv
    obtain ⟨i, e⟩ := p
    rw [copyEdgesOut_cons, ih _ _ (fun q hq => hv q (List.mem_cons_of_mem _ hq))]
    have hne : v ≠ fwdTgt g e := fun h => hv (i, e) (List.mem_cons_self _ _) h.symm
    simp [updateBufs, hne]

/-- In-range hypotheses for every write of the copy loop, relative to a
buffer state. -/
def OutRangeOK (g : Graph) (node : Nat) (pairs : List (Nat × Nat)) (s : Bufs) :
    Prop :=
  ∀ p ∈ pairs,
    fwdTOff g p.2 + fwdLen g node p.1 ≤ ((s (fwdTgt g p.2)).1).length ∧
    fwdNOff g node p.2 + fwdLen g node p.1 ≤ ((s node).2).length

/-- In-range copies preserve the length of every input buffer. -/
theorem copyEdgesOut_in_length (g : Graph) (node : Nat) :
    ∀ pairs s, OutRangeOK g node pairs s →
      ∀ v, ((copyEdgesOut g node pairs s) v).1.length = ((s v).1).length := by
  intro pairs
  induction pairs with
  | nil => intro s _ v; rfl
  | cons p rest ih =>
    intro s hr v
    obtain ⟨i, e⟩ := p
    obtain ⟨h1, h2⟩ := hr (i, e) (List.mem_cons_self _ _)
    rw [copyEdgesOut_cons]
    set s1 := updateBufs s (fwdTgt g e)
      (vector_subvec_memcpy (s (fwdTgt g e)).1 (fwdTOff g e) (s node).2
          (fwdNOff g node e) (fwdLen g node i),
        (s (fwdTgt g e)).2) with hs1
    have hlen : ∀ w, ((s1 w).1).length = ((s w).1).length := by
      intro w
      by_cases hw : w = fwdTgt g e
      · subst hw
        simp only [hs1, updateBufs, if_pos rfl]
        exact length_vector_subvec_memcpy _ _ _ _ _ h1 h2
      · simp [hs1, updateBufs, hw]
    have hout : (s1 node).2 = (s node).2 := by
      by_cases hw : node = fwdTgt g e <;> simp [hs1, updateBufs, hw]
    rw [ih s1 ?_ v, hlen v]
    intro q hq
    obtain ⟨hq1, hq2⟩ := hr q (List.mem_cons_of_mem _ hq)
    rw [hlen, hout]
    exact ⟨hq1, hq2⟩

/-- A region of some input buffer that no write of the loop overlaps is
left unchanged. -/
theorem copyEdgesOut_seg_frame (g : Graph) (node : Nat) :
    ∀ pairs s v o l, OutRangeOK g node pairs s →
      (∀ p ∈ pairs, fwdTgt g p.2 ≠ v ∨ o + l ≤ fwdTOff g p.2 ∨
        fwdTOff g p.2 + fwdLen g node p.1 ≤ o) →
      bufSeg ((copyEdgesOut g node pairs s) v).1 o l = bufSeg ((s v).1) o l := by
  intro pairs
  induction pairs with
  | nil => intro s v o l _ _; rfl
  | cons p rest ih =>
    intro s v o l hr hd
    obtain ⟨i, e⟩ := p
    obtain ⟨h1, h2⟩ := hr (i, e) (List.mem_cons_self _ _)
    rw [copyEdgesOut_cons]
    set s1 := updateBufs s (fwdTgt g e)
      (vector_subvec_memcpy (s (fwdTgt g e)).1 (fwdTOff g e) (s node).2
          (fwdNOff g node e) (fwdLen g node i),
        (s (fwdTgt g e)).2) with hs1
    have hlen : ∀ w, ((s1 w).1).length = ((s w).1).length := by
      intro w
      by_cases hw : w = fwdTgt g e
      · subst hw
        simp only [hs1, updateBufs, if_pos rfl]
        exact length_vector_subvec_memcpy _ _ _ _ _ h1 h2
      · simp [hs1, updateBufs, hw]
    have hout : (s1 node).2 = (s node).2 := by
      by_cases hw : node = fwdTgt g e <;> simp [hs1, updateBufs, hw]
    have hstep : bufSeg ((s1 v).1) o l = bufSeg ((s v).1) o l := by
      by_cases hv : v = fwdTgt g e
      · subst hv
        simp only [hs1, updateBufs, if_pos rfl]
        rcases hd (i, e) (List.mem_cons_self _ _) with hne | hdisj
        · exact absurd rfl hne
        · exact bufSeg_memcpy_frame _ _ _ _ _ _ _ h1 h2 hdisj
      · simp [hs1, updateBufs, hv]
    rw [ih s1 v o l ?_ ?_, hstep]
    · intro q hq
      obtain ⟨hq1, hq2⟩ := hr q (List.mem_cons_of_mem _ hq)
      rw [hlen, hout]
      exact ⟨hq1, hq2⟩
    · exact fun q hq => hd q (List.mem_cons_of_mem _ hq)



/-- Each slot of the copy loop lands exactly the corresponding source
segment at its target offset, provided every write is in range and regions
of the same target are pairwise disjoint. -/
theorem copyEdgesOut_seg (g : Graph) (node : Nat) :
    ∀ pairs s, OutRangeOK g node pairs s →
      pairs.Pairwise (fun p q => fwdTgt g p.2 = fwdTgt g q.2 →
        fwdTOff g p.2 + fwdLen g node p.1 ≤ fwdTOff g q.2 ∨
        fwdTOff g q.2 + fwdLen g node q.1 ≤ fwdTOff g p.2) →
      ∀ p ∈ pairs,
        bufSeg ((copyEdgesOut g node pairs s) (fwdTgt g p.2)).1 (fwdTOff g p.2)
            (fwdLen g node p.1) =
          bufSeg ((s node).2) (fwdNOff g node p.2) (fwdLen g node p.1) := by
  intro pairs
  induction pairs with
  | nil => intro s _ _ p hp; cases hp
  | cons hd0 rest ih =>
    intro s hr hd p hp
    obtain ⟨i, e⟩ := hd0
    obtain ⟨h1, h2⟩ := hr (i, e) (List.mem_cons_self _ _)
    rw [copyEdgesOut_cons]
    set s1 := updateBufs s (fwdTgt g e)
      (vector_subvec_memcpy (s (fwdTgt g e)).1 (fwdTOff g e) (s node).2
          (fwdNOff g node e) (fwdLen g node i),
        (s (fwdTgt g e)).2) with hs1
    have hlen : ∀ w, ((s1 w).1).length = ((s w).1).length := by
      intro w
      by_cases hw : w = fwdTgt g e
      · subst hw
        simp only [hs1, updateBufs, if_pos rfl]
        exact length_vector_subvec_memcpy _ _ _ _ _ h1 h2
      · simp [hs1, updateBufs, hw]
    have hout : (s1 node).2 = (s node).2 := by
      by_cases hw : node = fwdTgt g e <;> simp [hs1, updateBufs, hw]
    have hrest : OutRangeOK g node rest s1 := by
      intro q hq
      obtain ⟨hq1, hq2⟩ := hr q (List.mem_cons_of_mem _ hq)
      rw [hlen, hout]
      exact ⟨hq1, hq2⟩
    rcases List.mem_cons.mp hp with hpq | hp2
    · subst hpq
      dsimp only
      rw [copyEdgesOut_seg_frame g node rest s1 (fwdTgt g e) (fwdTOff g e)
        (fwdLen g node i) hrest ?_]
      · simp only [hs1, updateBufs, if_pos rfl]
        exact bufSeg_memcpy_self _ _ _ _ _ h1 h2
      · intro q hq
        by_cases ht : fwdTgt g q.2 = fwdTgt g e
        · rcases (List.pairwise_cons.mp hd).1 q hq ht.symm with hc | hc
          · exact Or.inr (Or.inl hc)
          · exact Or.inr (Or.inr hc)
        · exact Or.inl ht
    · rw [ih s1 hrest (List.pairwise_cons.mp hd).2 p hp2, hout]

/-- The effect of the forward evaluation visitor: the node's output buffer
becomes the kernel of its input buffer, and each output-edge slot's segment
is copied to its destination. -/
theorem forward_node_eval_spec (g : Graph) (node : Nat) (s : Bufs)
    (hr : ∀ p ∈ (g.fao node).output_edges.enum,
      fwdTOff g p.2 + fwdLen g node p.1 ≤ ((s (fwdTgt g p.2)).1).length ∧
      fwdNOff g node p.2 + fwdLen g node p.1 ≤
        ((g.fao node).forward_kernel ((s node).1)).length)
    (hd : ((g.fao node).output_edges.enum).Pairwise (fun p q =>
      fwdTgt g p.2 = fwdTgt g q.2 →
        fwdTOff g p.2 + fwdLen g node p.1 ≤ fwdTOff g q.2 ∨
        fwdTOff g q.2 + fwdLen g node q.1 ≤ fwdTOff g p.2)) :
    ((forward_node_eval g node s) node).2 =
      (g.fao node).forward_kernel ((s node).1) ∧
    ∀ p ∈ (g.fao node).output_edges.enum,
      bufSeg (((forward_node_eval g node s) (fwdTgt g p.2)).1) (fwdTOff g p.2)
          (fwdLen g node p.1) =
        bufSeg ((g.fao node).forward_kernel ((s node).1)) (fwdNOff g node p.2)
          (fwdLen g node p.1) := by
  set s0 := updateBufs s node ((s node).1, (g.fao node).forward_kernel (s node).1)
    with hs0
  have hsnd : (s0 node).2 = (g.fao node).forward_kernel ((s node).1) := by
    simp [hs0, updateBufs]
  have hfst : ∀ v, (s0 v).1 = (s v).1 := by
    intro v; by_cases hv : v = node <;> simp [hs0, updateBufs, hv]
  have hfe : forward_node_eval g node s =
      copyEdgesOut g node (g.fao node).output_edges.enum s0 := rfl
  have hro : OutRangeOK g node (g.fao node).output_edges.enum s0 := by
    intro q hq
    obtain ⟨hq1, hq2⟩ := hr q hq
    rw [hfst, hsnd]
    exact ⟨hq1, hq2⟩
  constructor
  · rw [hfe, copyEdgesOut_out, hsnd]
  · intro p hp
    rw [hfe, copyEdgesOut_seg g node _ s0 hro hd p hp, hsnd]

/-- Destination of an adjoint copy along edge `e` (`edges[e].first`). -/
def adjTgt (g : Graph) (e : Nat) : Nat := (g.edges e).1

/-- Offset in the source node's output buffer (`target->output_offsets[e]`). -/
def adjTOff (g : Graph) (e : Nat) : Nat := (g.fao (adjTgt g e)).output_offsets e

/-- Offset in the visiting node's input buffer (`node->input_offsets[e]`). -/
def adjNOff (g : Graph) (node e : Nat) : Nat := (g.fao node).input_offsets e

/-- The copied element count for input slot `i`:
`node->get_elem_length(node->input_sizes[i])`. -/
def adjLen (g : Graph) (node i : Nat) : Nat :=
  (g.fao node).get_elem_length ((g.fao node).input_sizes.getD i [])


/-- C6: for every FAO_DAG, `get_adjoint_input()` returns the same buffer as
`get_forward_output()` (the end node's output buffer) and
`get_adjoint_output()` the same buffer as `get_forward_input()` (the start
node's input buffer), both as buffer references and as dereferenced
contents in every buffer state. -/
theorem adjoint_forward_role_swap (g : Graph) :
    get_adjoint_input g = get_forward_output g ∧
    get_adjoint_output g = get_forward_input g ∧
    get_forward_output g = (g.end_node, true) ∧
    get_forward_input g = (g.start_node, false) ∧
    ∀ s : Bufs,
      readRef s (get_adjoint_input g) = readRef s (get_forward_output g) ∧
      readRef s (get_adjoint_output g) = readRef s (get_forward_input g) :=
  ⟨rfl, rfl, rfl, rfl, fun _ => ⟨rfl, rfl⟩⟩

/-- C5: `copy_input` / `copy_output` with a flat array whose length differs
from the selected boundary buffer's length is a fatal assertion (modelled as
`none`): the call aborts deterministically with no partial copy, never
truncating or padding; with matching length the full copy is performed. -/
theorem copy_boundary_length_check (g : Graph) (inst : Inst) (a : List Int)
    (fwd : Bool) :
    (a.length ≠ (readRef inst.bufs
        (if fwd then get_forward_input g else get_adjoint_input g)).length →
      copy_input g a fwd inst = none) ∧
    (a.length = (readRef inst.bufs
        (if fwd then get_forward_input g else get_adjoint_input g)).length →
      copy_input g a fwd inst = some { inst with
        bufs := writeRef inst.bufs
          (if fwd then get_forward_input g else get_adjoint_input g) a }) ∧
    (a.length ≠ (readRef inst.bufs
        (if fwd then get_forward_output g else get_adjoint_output g)).length →
      copy_output g a fwd inst = none) ∧
    (a.length = (readRef inst.bufs
        (if fwd then get_forward_output g else get_adjoint_output g)).length →
      copy_output g a fwd inst = some (readRef inst.bufs
        (if fwd then get_forward_output g else get_adjoint_output g))) := by
  refine ⟨?_, ?_, ?_, ?_⟩ <;> intro h <;> simp [copy_input, copy_output, h]

/-- Inversion principle for a successful `traverse_graph` call. -/
theorem traverse_graph_cases (g : Graph) (node_fn : Nat → Bufs → Bufs)
    (forward : Bool) (fuel : Nat) (inst i : Inst)
    (h : traverse_graph g node_fn forward fuel inst = some i) :
    ∃ st, runLoop g forward node_fn fuel
        ⟨inst.ready_queue ++ [seedNode g forward], inst.eval_map, inst.bufs, []⟩ =
          some st ∧
      i = { inst with ready_queue := st.queue, eval_map := fun _ => 0,
                      bufs := st.bufs } := by
  unfold traverse_graph at h
  cases hr : runLoop g forward node_fn fuel
      ⟨inst.ready_queue ++ [seedNode g forward], inst.eval_map, inst.bufs, []⟩ with
  | none => rw [hr] at h; cases h
  | some st => rw [hr] at h; exact ⟨st, rfl, (Option.some.inj h).symm⟩

/-- Introduction principle for a successful `traverse_graph` call. -/
theorem traverse_graph_intro (g : Graph) (node_fn : Nat → Bufs → Bufs)
    (forward : Bool) (fuel : Nat) (inst : Inst) (st : TravState)
    (hr : runLoop g forward node_fn fuel
      ⟨inst.ready_queue ++ [seedNode g forward], inst.eval_map, inst.bufs, []⟩ =
        some st) :
    traverse_graph g node_fn forward fuel inst =
      some { inst with ready_queue := st.queue, eval_map := fun _ => 0,
                       bufs := st.bufs } := by
  unfold traverse_graph
  rw [hr]

/-- Any successful evaluation call leaves the counter map cleared and the
ready queue empty. -/
theorem applyOp_props (g : Graph) (fuel : Nat) (op : DagOp) (i i2 : Inst)
    (h : applyOp g fuel op i = some i2) :
    i2.eval_map = (fun _ => 0) ∧ i2.ready_queue = [] := by
  cases op with
  | fwdEval t =>
    simp only [applyOp, forward_eval] at h
    cases ht : traverse_graph g (forward_node_eval g) true fuel i with
    | none => rw [ht] at h; cases h
    | some j =>
      rw [ht] at h
      obtain ⟨st, hr, hj⟩ := traverse_graph_cases _ _ _ _ _ _ ht
      have hq := runLoop_some_queue_nil _ _ _ _ _ _ hr
      injection h with h2
      subst h2; subst hj
      exact ⟨rfl, hq⟩
  | adjEval t =>
    simp only [applyOp, adjoint_eval] at h
    cases ht : traverse_graph g (adjoint_node_eval g) false fuel i with
    | none => rw [ht] at h; cases h
    | some j =>
      rw [ht] at h
      obtain ⟨st, hr, hj⟩ := traverse_graph_cases _ _ _ _ _ _ ht
      have hq := runLoop_some_queue_nil _ _ _ _ _ _ hr
      injection h with h2
      subst h2; subst hj
      exact ⟨rfl, hq⟩

theorem runOps_preserves (g : Graph) (fuel : Nat) :
    ∀ ops (i i' : Inst), runOps g fuel ops i = some i' →
      i.eval_map = (fun _ => 0) → i.ready_queue = [] →
      i'.eval_map = (fun _ => 0) ∧ i'.ready_queue = [] := by
  intro ops
  induction ops with
  | nil =>
    intro i i' h h1 h2
    unfold runOps at h
    injection h with h3
    subst h3; exact ⟨h1, h2⟩
  | cons op rest ih =>
    intro i i' h h1 h2
    unfold runOps at h
    cases hop : applyOp g fuel op i with
    | none => rw [hop] at h; cases h
    | some i2 =>
      rw [hop] at h
      obtain ⟨h3, h4⟩ := applyOp_props g fuel op i i2 hop
      exact ih i2 i' h h3 h4

/-- C7: the arrival-counter map (`eval_map`) is cleared before every
`traverse_graph` return, and is therefore empty whenever a traversal starts:
from a freshly constructed engine, any sequence of evaluation calls always
finds an empty counter map and an empty ready queue, so the same graph
structure supports unboundedly many consecutive traversals with no residual
scheduler state. -/
theorem eval_map_cleared (g : Graph) (fuel : Nat) :
    (∀ node_fn fwd inst i, traverse_graph g node_fn fwd fuel inst = some i →
      i.eval_map = fun _ => 0) ∧
    (∀ i0 ops i, mkFAO_DAG g fuel = some i0 → runOps g fuel ops i0 = some i →
      i.eval_map = (fun _ => 0) ∧ i.ready_queue = []) := by
  constructor
  · intro node_fn fwd inst i h
    obtain ⟨st, _, hi⟩ := traverse_graph_cases g node_fn fwd fuel inst i h
    rw [hi]
  · intro i0 ops i hmk hops
    obtain ⟨st, hr, hi0⟩ := traverse_graph_cases g (allocVisitor g) true fuel
      initialInst i0 hmk
    have hq := runLoop_some_queue_nil _ _ _ _ _ _ hr
    exact runOps_preserves g fuel ops i0 i hops (by rw [hi0]) (by rw [hi0]; exact hq)

/-- Witness for C7: on the one-node graph, construction followed by a
forward and an adjoint evaluation ends with a cleared counter map and an
empty queue. -/
theorem eval_map_cleared_witness :
    ∃ i0 i, mkFAO_DAG egSingle 1 = some i0 ∧
      runOps egSingle 1 [DagOp.fwdEval 1, DagOp.adjEval 1] i0 = some i ∧
      i.eval_map = (fun _ => 0) ∧ i.ready_queue = [] := by
  refine ⟨_, _, rfl, rfl, ?_⟩
  exact (eval_map_cleared egSingle 1).2 _ [DagOp.fwdEval 1, DagOp.adjEval 1] _ rfl rfl

/-- C9: destroying the engine before any forward (resp. adjoint) evaluation
has occurred makes the teardown report divide each cumulative time by a
zero call count; the division is unguarded and its result non-finite
("indeterminate", modelled by `none` in `averageTime`), while the
deallocation traversal itself still completes normally — no abort. -/
theorem destruct_before_eval_report (g : Graph) (fuel : Nat) (i0 : Inst)
    (hmk : mkFAO_DAG g fuel = some i0) :
    i0.forward_evals = 0 ∧ i0.adjoint_evals = 0 ∧
    averageTime i0.total_forward_eval_time i0.forward_evals = none ∧
    averageTime i0.total_adjoint_eval_time i0.adjoint_evals = none ∧
    ∃ i1, destructFAO_DAG g fuel i0 = some ((0, none), (0, none), i1) := by
  obtain ⟨st, hr, hi0⟩ := traverse_graph_cases g (allocVisitor g) true fuel
    initialInst i0 hmk
  have hq := runLoop_some_queue_nil _ _ _ _ _ _ hr
  subst hi0
  refine ⟨rfl, rfl, by simp [averageTime, initialInst], by simp [averageTime, initialInst], ?_⟩
  have hsched := runLoop_schedOf g true (allocVisitor g) (fun n s => freeVisitor n s)
    fuel ⟨initialInst.ready_queue ++ [seedNode g true], initialInst.eval_map,
      initialInst.bufs, []⟩
    ⟨st.queue ++ [seedNode g true], fun _ => 0, st.bufs, []⟩
    (by rw [hq]; rfl)
  rw [hr] at hsched
  cases hfr : runLoop g true (fun n s => freeVisitor n s) fuel
      ⟨st.queue ++ [seedNode g true], fun _ => 0, st.bufs, []⟩ with
  | none => rw [hfr] at hsched; simp at hsched
  | some st2 =>
    unfold destructFAO_DAG
    rw [traverse_graph_intro g (fun n s => freeVisitor n s) true fuel
      { ready_queue := st.queue, eval_map := fun _ => 0, bufs := st.bufs,
        forward_evals := initialInst.forward_evals,
        adjoint_evals := initialInst.adjoint_evals,
        total_forward_eval_time := initialInst.total_forward_eval_time,
        total_adjoint_eval_time := initialInst.total_adjoint_eval_time } st2 hfr]
    exact ⟨_, rfl⟩

/-- Witness for C9 on the concrete one-node graph. -/
theorem destruct_before_eval_report_witness :
    ∃ i0, mkFAO_DAG egSingle 1 = some i0 ∧
      (∃ i1, destructFAO_DAG egSingle 1 i0 = some ((0, none), (0, none), i1)) := by
  refine ⟨_, rfl, (destruct_before_eval_report egSingle 1 _ rfl).2.2.2.2⟩

/-- Witness for C5 on the concrete one-node graph: a length-1 array against
a length-2 boundary buffer aborts; length-2 arrays are copied in full. -/
theorem copy_boundary_length_check_witness :
    copy_input egSingle [5] true egInst = none ∧
    copy_input egSingle [7, 8] true egInst = some { egInst with
      bufs := writeRef egInst.bufs (get_forward_input egSingle) [7, 8] } ∧
    copy_output egSingle [5] false egInst = none ∧
    copy_output egSingle [7, 8] true egInst = some [0, 0] :=
  ⟨(copy_boundary_length_check egSingle egInst [5] true).1 (by decide),
    (copy_boundary_length_check egSingle egInst [7, 8] true).2.1 (by decide),
    (copy_boundary_length_check egSingle egInst [5] false).2.2.1 (by decide),
    (copy_boundary_length_check egSingle egInst [7, 8] true).2.2.2 (by decide)⟩


/-- C3: after running a node's kernel, the evaluation visitor copies, for
every slot `(i, e)` of the node's direction-appropriate edge list, exactly
`get_elem_length(declared_shape[i])` scalar values from the node's own
buffer at its offset for `e` to the far-end node's buffer at that node's
offset for the same edge id — on the forward pass from the node's output
buffer into the destination's input buffer, on the adjoint pass from the
node's input buffer into the source's output buffer.  The in-range and
region-disjointness hypotheses are the offset-map layout invariants. -/
theorem node_eval_propagation (g : Graph) (node : Nat) (s : Bufs)
    (hrF : ∀ p ∈ (g.fao node).output_edges.enum,
      fwdTOff g p.2 + fwdLen g node p.1 ≤ ((s (fwdTgt g p.2)).1).length ∧
      fwdNOff g node p.2 + fwdLen g node p.1 ≤
        ((g.fao node).forward_kernel ((s node).1)).length)
    (hdF : ((g.fao node).output_edges.enum).Pairwise (fun p q =>
      fwdTgt g p.2 = fwdTgt g q.2 →
        fwdTOff g p.2 + fwdLen g node p.1 ≤ fwdTOff g q.2 ∨
        fwdTOff g q.2 + fwdLen g node q.1 ≤ fwdTOff g p.2))
    (hrA : ∀ p ∈ (g.fao node).input_edges.enum,
      adjTOff g p.2 + adjLen g node p.1 ≤ ((s (adjTgt g p.2)).2).length ∧
      adjNOff g node p.2 + adjLen g node p.1 ≤
        ((g.fao node).adjoint_kernel ((s node).2)).length)
    (hdA : ((g.fao node).input_edges.enum).Pairwise (fun p q =>
      adjTgt g p.2 = adjTgt g q.2 →
        adjTOff g p.2 + adjLen g node p.1 ≤ adjTOff g q.2 ∨
        adjTOff g q.2 + adjLen g node q.1 ≤ adjTOff g p.2)) :
    ((forward_node_eval g node s) node).2 =
      (g.fao node).forward_kernel ((s node).1) ∧
    (∀ p ∈ (g.fao node).output_edges.enum,
      bufSeg (((forward_node_eval g node s) (fwdTgt g p.2)).1) (fwdTOff g p.2)
          (fwdLen g node p.1) =
        bufSeg ((g.fao node).forward_kernel ((s node).1)) (fwdNOff g node p.2)
          (fwdLen g node p.1)) ∧
    ((adjoint_node_eval g node s) node).1 =
      (g.fao node).adjoint_kernel ((s node).2) ∧
    (∀ p ∈ (g.fao node).input_edges.enum,
      bufSeg (((adjoint_node_eval g node s) (adjTgt g p.2)).2) (adjTOff g p.2)
          (adjLen g node p.1) =
        bufSeg ((g.fao node).adjoint_kernel ((s node).2)) (adjNOff g node p.2)
          (adjLen g node p.1)) := by
  obtain ⟨hf1, hf2⟩ := forward_node_eval_spec g node s hrF hdF
  have hA := forward_node_eval_spec (flipGraph g) node (flipBufs s) hrA hdA
  refine ⟨hf1, hf2, ?_, ?_⟩
  · rw [adjoint_node_eval_eq_flip]
    exact hA.1
  · intro p hp
    rw [adjoint_node_eval_eq_flip]
    exact hA.2 p hp

/-- Two nodes, one edge `0 : 0 → 1`, carrying two elements. -/
def egPair : Graph :=
  ⟨[0, 1], 0, 1, fun _ => (0, 1),
    fun v =>
      if v = 0 then
        ⟨[], [0], [], [[2]], fun _ => 0, fun _ => 0, 2, 2,
          fun _ => [7, 8], fun x => x, fun s => s.prod⟩
      else
        ⟨[0], [], [[2]], [], fun _ => 0, fun _ => 0, 2, 2,
          fun x => x, fun _ => [3, 4], fun s => s.prod⟩⟩

/-- Witness for C3 on `egPair` at node 0: the kernel result `[7, 8]` is
written to node 0's output buffer and its two elements are copied into
node 1's input buffer at offset 0. -/
theorem node_eval_propagation_witness :
    ((forward_node_eval egPair 0 (fun _ => ([0, 0], [0, 0]))) 0).2 = [7, 8] ∧
    bufSeg (((forward_node_eval egPair 0 (fun _ => ([0, 0], [0, 0]))) 1).1) 0 2 =
      bufSeg [7, 8] 0 2 := by
  have h := node_eval_propagation egPair 0 (fun _ => ([0, 0], [0, 0]))
    (by decide) (by decide) (by decide) (by decide)
  exact ⟨h.1, h.2.1 (0, 0) (by decide)⟩

/-! ## C10: the receiver's declared shape is never consulted -/

/-- `g2` agrees with `g1` in everything except possibly the nodes' declared
input shapes (`input_sizes`). -/
def EqExceptInputSizes (g1 g2 : Graph) : Prop :=
  g2.nodes = g1.nodes ∧ g2.start_node = g1.start_node ∧
  g2.end_node = g1.end_node ∧ g2.edges = g1.edges ∧
  ∀ v, (g2.fao v).input_edges = (g1.fao v).input_edges ∧
    (g2.fao v).output_edges = (g1.fao v).output_edges ∧
    (g2.fao v).output_sizes = (g1.fao v).output_sizes ∧
    (g2.fao v).input_offsets = (g1.fao v).input_offsets ∧
    (g2.fao v).output_offsets = (g1.fao v).output_offsets ∧
    (g2.fao v).input_len = (g1.fao v).input_len ∧
    (g2.fao v).output_len = (g1.fao v).output_len ∧
    (g2.fao v).forward_kernel = (g1.fao v).forward_kernel ∧
    (g2.fao v).adjoint_kernel = (g1.fao v).adjoint_kernel ∧
    (g2.fao v).get_elem_length = (g1.fao v).get_elem_length

/-- `g2` agrees with `g1` in everything except possibly the nodes' declared
output shapes (`output_sizes`). -/
def EqExceptOutputSizes (g1 g2 : Graph) : Prop :=
  g2.nodes = g1.nodes ∧ g2.start_node = g1.start_node ∧
  g2.end_node = g1.end_node ∧ g2.edges = g1.edges ∧
  ∀ v, (g2.fao v).input_edges = (g1.fao v).input_edges ∧
    (g2.fao v).output_edges = (g1.fao v).output_edges ∧
    (g2.fao v).input_sizes = (g1.fao v).input_sizes ∧
    (g2.fao v).input_offsets = (g1.fao v).input_offsets ∧
    (g2.fao v).output_offsets = (g1.fao v).output_offsets ∧
    (g2.fao v).input_len = (g1.fao v).input_len ∧
    (g2.fao v).output_len = (g1.fao v).output_len ∧
    (g2.fao v).forward_kernel = (g1.fao v).forward_kernel ∧
    (g2.fao v).adjoint_kernel = (g1.fao v).adjoint_kernel ∧
    (g2.fao v).get_elem_length = (g1.fao v).get_elem_length

theorem copyEdgesOut_congr (g1 g2 : Graph) (h : EqExceptInputSizes g1 g2)
    (node : Nat) :
    ∀ pairs s, copyEdgesOut g2 node pairs s = copyEdgesOut g1 node pairs s := by
  obtain ⟨hn, hs, he, hed, hf⟩ := h
  intro pairs
  induction pairs with
  | nil => intro s; rfl
  | cons p rest ih =>
    intro s
    obtain ⟨i, e⟩ := p
    rw [copyEdgesOut_cons, copyEdgesOut_cons, ih]
    obtain ⟨_, _, hos, hio, hoo, _, _, _, _, hel⟩ := hf node
    have htg : fwdTgt g2 e = fwdTgt g1 e := by simp [fwdTgt, hed]
    have hto : fwdTOff g2 e = fwdTOff g1 e := by
      simp [fwdTOff, htg, (hf (fwdTgt g1 e)).2.2.2.1]
    have hno : fwdNOff g2 node e = fwdNOff g1 node e := by simp [fwdNOff, hoo]
    have hln : fwdLen g2 node i = fwdLen g1 node i := by
      simp [fwdLen, hos, hel]
    rw [htg, hto, hno, hln]

theorem forward_node_eval_congr (g1 g2 : Graph) (h : EqExceptInputSizes g1 g2)
    (node : Nat) (s : Bufs) :
    forward_node_eval g2 node s = forward_node_eval g1 node s := by
  simp only [forward_node_eval]
  rw [copyEdgesOut_congr g1 g2 h node]
  rw [(h.2.2.2.2 node).2.1, (h.2.2.2.2 node).2.2.2.2.2.2.2.1]

theorem processEdges_congr (g1 g2 : Graph) (hed : g2.edges = g1.edges)
    (hie : ∀ v, (g2.fao v).input_edges = (g1.fao v).input_edges) :
    ∀ es em q, processEdges g2 true es em q = processEdges g1 true es em q := by
  intro es
  induction es with
  | nil => intro em q; rfl
  | cons e rest ih =>
    intro em q
    simp only [processEdges]
    have h1 : eDst g2 true e = eDst g1 true e := by simp [eDst, hed]
    have h2 : needCount g2 true (eDst g1 true e) =
        needCount g1 true (eDst g1 true e) := by
      simp [needCount, predEdges, hie]
    rw [h1, h2, ih]

theorem runLoop_fwd_congr (g1 g2 : Graph) (hed : g2.edges = g1.edges)
    (hie : ∀ v, (g2.fao v).input_edges = (g1.fao v).input_edges)
    (hoe : ∀ v, (g2.fao v).output_edges = (g1.fao v).output_edges)
    (vis : Nat → Bufs → Bufs) :
    ∀ fuel st, runLoop g2 true vis fuel st = runLoop g1 true vis fuel st := by
  intro fuel
  induction fuel with
  | zero =>
    rintro ⟨q, em, s, v⟩
    cases q <;> rfl
  | succ n ih =>
    rintro ⟨q, em, s, v⟩
    cases q with
    | nil => rfl
    | cons c rest =>
      simp only [runLoop]
      rw [ih]
      congr 1
      simp only [stepOnce]
      have h1 : succEdges g2 true c = succEdges g1 true c := by
        simp [succEdges, hoe]
      rw [h1, processEdges_congr g1 g2 hed hie]


theorem eqExcept_flip (g1 g2 : Graph) (h : EqExceptOutputSizes g1 g2) :
    EqExceptInputSizes (flipGraph g1) (flipGraph g2) := by
  obtain ⟨hn, hs, he, hed, hf⟩ := h
  refine ⟨hn, he, hs, ?_, ?_⟩
  · funext e; simp [flipGraph, hed]
  · intro v
    obtain ⟨h1, h2, h3, h4, h5, h6, h7, h8, h9, h10⟩ := hf v
    exact ⟨h2, h1, h3, h5, h4, h7, h6, h9, h8, h10⟩

theorem adjoint_node_eval_congr (g1 g2 : Graph) (h : EqExceptOutputSizes g1 g2)
    (node : Nat) (s : Bufs) :
    adjoint_node_eval g2 node s = adjoint_node_eval g1 node s := by
  rw [adjoint_node_eval_eq_flip, adjoint_node_eval_eq_flip,
    forward_node_eval_congr (flipGraph g1) (flipGraph g2)
      (eqExcept_flip g1 g2 h) node]

theorem processEdges_rev_congr (g1 g2 : Graph) (hed : g2.edges = g1.edges)
    (hoe : ∀ v, (g2.fao v).output_edges = (g1.fao v).output_edges) :
    ∀ es em q, processEdges g2 false es em q = processEdges g1 false es em q := by
  intro es
  induction es with
  | nil => intro em q; rfl
  | cons e rest ih =>
    intro em q
    simp only [processEdges]
    have h1 : eDst g2 false e = eDst g1 false e := by simp [eDst, hed]
    have h2 : needCount g2 false (eDst g1 false e) =
        needCount g1 false (eDst g1 false e) := by
      simp [needCount, predEdges, hoe]
    rw [h1, h2, ih]

theorem runLoop_rev_congr (g1 g2 : Graph) (hed : g2.edges = g1.edges)
    (hie : ∀ v, (g2.fao v).input_edges = (g1.fao v).input_edges)
    (hoe : ∀ v, (g2.fao v).output_edges = (g1.fao v).output_edges)
    (vis : Nat → Bufs → Bufs) :
    ∀ fuel st, runLoop g2 false vis fuel st = runLoop g1 false vis fuel st := by
  intro fuel
  induction fuel with
  | zero =>
    rintro ⟨q, em, s, v⟩
    cases q <;> rfl
  | succ n ih =>
    rintro ⟨q, em, s, v⟩
    cases q with
    | nil => rfl
    | cons c rest =>
      simp only [runLoop]
      rw [ih]
      congr 1
      simp only [stepOnce]
      have h1 : succEdges g2 false c = succEdges g1 false c := by
        simp [succEdges, hie]
      rw [h1, processEdges_rev_congr g1 g2 hed hoe]

/-- Three nodes; edge `0 : 0 → 2` and edge `1 : 1 → 2`.  The sender on edge
0 (node 0) declares 2 elements while the receiver (node 2) declares 1 and
places edge 1's one-element region immediately after it at offset 1. -/
def egMismatch : Graph :=
  ⟨[0, 1, 2], 0, 2, fun e => if e = 0 then (0, 2) else (1, 2),
    fun v =>
      if v = 0 then
        ⟨[], [0], [], [[2]], fun _ => 0, fun _ => 0, 1, 2,
          fun _ => [7, 8], fun x => x, fun s => s.prod⟩
      else if v = 1 then
        ⟨[], [1], [], [[1]], fun _ => 0, fun _ => 0, 1, 1,
          fun _ => [9], fun x => x, fun s => s.prod⟩
      else
        ⟨[0, 1], [], [[1], [1]], [], fun e => e, fun _ => 0, 2, 1,
          fun x => x, fun x => x, fun s => s.prod⟩⟩

/-- C10: the element count of every propagation copy is determined solely
by the sending side's declared shape; the receiving side's declared shape
is never consulted.  Concretely: (1) `forward_eval` is invariant under
arbitrary changes of the nodes' `input_sizes`; (2) `adjoint_eval` is
invariant under arbitrary changes of the nodes' `output_sizes`; (3) on a
graph where the sender declares 2 elements for an edge whose receiver
declares only 1, the copy overruns the receiver's region for that edge and
clobbers the neighbouring region (so staying in range requires the
unchecked equal-element-count precondition). -/
theorem copy_length_sender_determined :
    (∀ g1 g2, EqExceptInputSizes g1 g2 → ∀ fuel t i,
      forward_eval g2 fuel t i = forward_eval g1 fuel t i) ∧
    (∀ g1 g2, EqExceptOutputSizes g1 g2 → ∀ fuel t i,
      adjoint_eval g2 fuel t i = adjoint_eval g1 fuel t i) ∧
    (fwdLen egMismatch 0 0 = 2 ∧
      (egMismatch.fao 2).get_elem_length
        ((egMismatch.fao 2).input_sizes.getD 0 []) = 1 ∧
      ((forward_node_eval egMismatch 0 (fun _ => ([0, 0], [0, 0]))) 2).1 =
        [7, 8] ∧
      bufSeg (((forward_node_eval egMismatch 0
        (fun _ => ([0, 0], [0, 0]))) 2).1) 1 1 = [8]) := by
  refine ⟨?_, ?_, by decide, by decide, by decide, by decide⟩
  · intro g1 g2 h fuel t i
    have hvis : forward_node_eval g2 = forward_node_eval g1 := by
      funext node s
      exact forward_node_eval_congr g1 g2 h node s
    simp only [forward_eval, traverse_graph]
    rw [hvis, runLoop_fwd_congr g1 g2 h.2.2.2.1
      (fun v => (h.2.2.2.2 v).1) (fun v => (h.2.2.2.2 v).2.1)]
    have hseed : seedNode g2 true = seedNode g1 true := by
      simp [seedNode, h.2.1]
    rw [hseed]
  · intro g1 g2 h fuel t i
    have hvis : adjoint_node_eval g2 = adjoint_node_eval g1 := by
      funext node s
      exact adjoint_node_eval_congr g1 g2 h node s
    simp only [adjoint_eval, traverse_graph]
    rw [hvis, runLoop_rev_congr g1 g2 h.2.2.2.1
      (fun v => (h.2.2.2.2 v).1) (fun v => (h.2.2.2.2 v).2.1)]
    have hseed : seedNode g2 false = seedNode g1 false := by
      simp [seedNode, h.2.2.1]
    rw [hseed]


/-- `egPair` with the receiver's (node 1) declared input shape changed. -/
def egPairAltIn : Graph :=
  ⟨[0, 1], 0, 1, fun _ => (0, 1),
    fun v =>
      if v = 0 then
        ⟨[], [0], [], [[2]], fun _ => 0, fun _ => 0, 2, 2,
          fun _ => [7, 8], fun x => x, fun s => s.prod⟩
      else
        ⟨[0], [], [[9, 9]], [], fun _ => 0, fun _ => 0, 2, 2,
          fun x => x, fun _ => [3, 4], fun s => s.prod⟩⟩

/-- `egPair` with the adjoint receiver's (node 0) declared output shape
changed. -/
def egPairAltOut : Graph :=
  ⟨[0, 1], 0, 1, fun _ => (0, 1),
    fun v =>
      if v = 0 then
        ⟨[], [0], [], [[9, 9]], fun _ => 0, fun _ => 0, 2, 2,
          fun _ => [7, 8], fun x => x, fun s => s.prod⟩
      else
        ⟨[0], [], [[2]], [], fun _ => 0, fun _ => 0, 2, 2,
          fun x => x, fun _ => [3, 4], fun s => s.prod⟩⟩

/-- Witness for C10: changing only the receiving side's declared shapes
changes neither evaluation direction on the concrete pair graph. -/
theorem copy_length_sender_determined_witness :
    forward_eval egPairAltIn 2 0 egInst = forward_eval egPair 2 0 egInst ∧
    adjoint_eval egPairAltOut 2 0 egInst = adjoint_eval egPair 2 0 egInst := by
  constructor
  · refine (copy_length_sender_determined).1 egPair egPairAltIn
      ⟨rfl, rfl, rfl, rfl, fun v => ?_⟩ 2 0 egInst
    by_cases hv : v = 0
    · subst hv; exact ⟨rfl, rfl, rfl, rfl, rfl, rfl, rfl, rfl, rfl, rfl⟩
    · simp [egPair, egPairAltIn, if_neg hv]
  · refine (copy_length_sender_determined).2.1 egPair egPairAltOut
      ⟨rfl, rfl, rfl, rfl, fun v => ?_⟩ 2 0 egInst
    by_cases hv : v = 0
    · subst hv; exact ⟨rfl, rfl, rfl, rfl, rfl, rfl, rfl, rfl, rfl, rfl⟩
    · simp [egPair, egPairAltOut, if_neg hv]


/-! ## C4: linear chain and identity graph -/

/-- A linear chain `0 → 1 → 2` with edge `0 : 0 → 1` (width `n1`) and edge
`1 : 1 → 2` (width `n2`), with arbitrary kernels; shapes are one-element
dimension lists and `element_count` reads the head. -/
def chainGraph (n0 n1 n2 n3 : Nat) (kA kB kC : List Int → List Int) : Graph :=
  ⟨[0, 1, 2], 0, 2, fun e => if e = 0 then (0, 1) else (1, 2),
    fun v =>
      if v = 0 then
        ⟨[], [0], [], [[n1]], fun _ => 0, fun _ => 0, n0, n1, kA, fun x => x,
          fun sz => sz.headD 0⟩
      else if v = 1 then
        ⟨[0], [1], [[n1]], [[n2]], fun _ => 0, fun _ => 0, n1, n2, kB,
          fun x => x, fun sz => sz.headD 0⟩
      else
        ⟨[1], [], [[n2]], [], fun _ => 0, fun _ => 0, n2, n3, kC, fun x => x,
          fun sz => sz.headD 0⟩⟩

/-- A full-buffer copy at offset 0 replaces the destination entirely. -/
theorem vector_subvec_memcpy_full (dst src : List Int) (n : Nat)
    (h1 : dst.length = n) (h2 : src.length = n) :
    vector_subvec_memcpy dst 0 src 0 n = src := by
  simp only [vector_subvec_memcpy, List.take_zero, List.drop_zero,
    List.nil_append, Nat.zero_add]
  rw [List.take_of_length_le (le_of_eq h2), List.drop_of_length_le (le_of_eq h1),
    List.append_nil]

/-- Successful `forward_eval` from an explicit loop result. -/
theorem forward_eval_intro (g : Graph) (fuel : Nat) (t : ℚ) (i : Inst)
    (st : TravState)
    (hr : runLoop g true (forward_node_eval g) fuel
      ⟨i.ready_queue ++ [seedNode g true], i.eval_map, i.bufs, []⟩ = some st) :
    forward_eval g fuel t i = some { i with
      ready_queue := st.queue,
      eval_map := fun _ => 0,
      bufs := st.bufs,
      forward_evals := i.forward_evals + 1,
      total_forward_eval_time := i.total_forward_eval_time + t } := by
  simp only [forward_eval]
  rw [traverse_graph_intro g _ true fuel i st hr]


/-- C4: for a linear chain `A → B → C` meeting the invariants, the global
output produced by `forward_eval` equals the sequential application of A's,
B's and C's forward kernels to the global input; and `forward_eval` on a
single-node identity graph returns the exact input unchanged. -/
theorem forward_eval_chain_identity :
    (∀ (n0 n1 n2 n3 : Nat) (kA kB kC : List Int → List Int) (x : List Int)
      (s : Bufs) (i : Inst) (t : ℚ),
      (s 0).1 = x → (kA x).length = n1 → (kB (kA x)).length = n2 →
      ((s 1).1).length = n1 → ((s 2).1).length = n2 →
      i.ready_queue = [] → i.eval_map = (fun _ => 0) → i.bufs = s →
      ∃ i2, forward_eval (chainGraph n0 n1 n2 n3 kA kB kC) 3 t i = some i2 ∧
        (i2.bufs 2).2 = kC (kB (kA x)) ∧ (i2.bufs 0).1 = x) ∧
    (∀ (s : Bufs) (i : Inst) (t : ℚ),
      i.ready_queue = [] → i.eval_map = (fun _ => 0) → i.bufs = s →
      ∃ i2, forward_eval egSingle 1 t i = some i2 ∧
        (i2.bufs 0).2 = (s 0).1) := by
  constructor
  · intro n0 n1 n2 n3 kA kB kC x s i t hs0 hkA hkB hs1 hs2 hiq hie hib
    have hstep0 : ∀ u : Bufs,
        forward_node_eval (chainGraph n0 n1 n2 n3 kA kB kC) 0 u =
          updateBufs (updateBufs u 0 ((u 0).1, kA ((u 0).1))) 1
            (vector_subvec_memcpy ((u 1).1) 0 (kA ((u 0).1)) 0 n1, (u 1).2) :=
      fun u => rfl
    have hstep1 : ∀ u : Bufs,
        forward_node_eval (chainGraph n0 n1 n2 n3 kA kB kC) 1 u =
          updateBufs (updateBufs u 1 ((u 1).1, kB ((u 1).1))) 2
            (vector_subvec_memcpy ((u 2).1) 0 (kB ((u 1).1)) 0 n2, (u 2).2) :=
      fun u => rfl
    have hstep2 : ∀ u : Bufs,
        forward_node_eval (chainGraph n0 n1 n2 n3 kA kB kC) 2 u =
          updateBufs u 2 ((u 2).1, kC ((u 2).1)) :=
      fun u => rfl
    obtain ⟨em3, hrun⟩ : ∃ em3,
        runLoop (chainGraph n0 n1 n2 n3 kA kB kC) true
          (forward_node_eval (chainGraph n0 n1 n2 n3 kA kB kC)) 3
          ⟨[0], fun _ => 0, s, []⟩ =
        some ⟨[], em3,
          forward_node_eval (chainGraph n0 n1 n2 n3 kA kB kC) 2
            (forward_node_eval (chainGraph n0 n1 n2 n3 kA kB kC) 1
              (forward_node_eval (chainGraph n0 n1 n2 n3 kA kB kC) 0 s)),
          [0, 1, 2]⟩ := ⟨_, rfl⟩
    have hr : runLoop (chainGraph n0 n1 n2 n3 kA kB kC) true
        (forward_node_eval (chainGraph n0 n1 n2 n3 kA kB kC)) 3
        ⟨i.ready_queue ++ [seedNode (chainGraph n0 n1 n2 n3 kA kB kC) true],
          i.eval_map, i.bufs, []⟩ =
        some ⟨[], em3,
          forward_node_eval (chainGraph n0 n1 n2 n3 kA kB kC) 2
            (forward_node_eval (chainGraph n0 n1 n2 n3 kA kB kC) 1
              (forward_node_eval (chainGraph n0 n1 n2 n3 kA kB kC) 0 s)),
          [0, 1, 2]⟩ := by
      rw [hiq, hie, hib]; exact hrun
    have hA0 : (forward_node_eval (chainGraph n0 n1 n2 n3 kA kB kC) 0 s) 0 =
        (x, kA x) := by
      rw [hstep0 s, hs0]; simp [updateBufs]
    have hA1 : (forward_node_eval (chainGraph n0 n1 n2 n3 kA kB kC) 0 s) 1 =
        (kA x, (s 1).2) := by
      rw [hstep0 s, hs0]
      simp only [updateBufs, if_pos]
      rw [vector_subvec_memcpy_full ((s 1).1) (kA x) n1 hs1 hkA]
    have hA2 : (forward_node_eval (chainGraph n0 n1 n2 n3 kA kB kC) 0 s) 2 =
        s 2 := by
      rw [hstep0 s]; simp [updateBufs]
    have hB0 : (forward_node_eval (chainGraph n0 n1 n2 n3 kA kB kC) 1
        (forward_node_eval (chainGraph n0 n1 n2 n3 kA kB kC) 0 s)) 0 =
        (x, kA x) := by
      rw [hstep1]
      simp only [updateBufs]
      norm_num
      exact hA0
    have hB2 : (forward_node_eval (chainGraph n0 n1 n2 n3 kA kB kC) 1
        (forward_node_eval (chainGraph n0 n1 n2 n3 kA kB kC) 0 s)) 2 =
        (kB (kA x), (s 2).2) := by
      rw [hstep1]
      simp only [updateBufs, if_pos, hA1, hA2]
      rw [vector_subvec_memcpy_full ((s 2).1) (kB (kA x)) n2 hs2 hkB]
    refine ⟨_, forward_eval_intro _ 3 t i _ hr, ?_, ?_⟩
    · show (forward_node_eval (chainGraph n0 n1 n2 n3 kA kB kC) 2
        (forward_node_eval (chainGraph n0 n1 n2 n3 kA kB kC) 1
          (forward_node_eval (chainGraph n0 n1 n2 n3 kA kB kC) 0 s)) 2).2 =
        kC (kB (kA x))
      rw [hstep2, hB2]
      simp [updateBufs]
    · show (forward_node_eval (chainGraph n0 n1 n2 n3 kA kB kC) 2
        (forward_node_eval (chainGraph n0 n1 n2 n3 kA kB kC) 1
          (forward_node_eval (chainGraph n0 n1 n2 n3 kA kB kC) 0 s)) 0).1 =
        x
      rw [hstep2]
      simp only [updateBufs]
      norm_num
      rw [hB0]
  · intro s i t hiq hie hib
    obtain ⟨em1, hrun⟩ : ∃ em1,
        runLoop egSingle true (forward_node_eval egSingle) 1
          ⟨[0], fun _ => 0, s, []⟩ =
        some ⟨[], em1, forward_node_eval egSingle 0 s, [0]⟩ := ⟨_, rfl⟩
    have hr : runLoop egSingle true (forward_node_eval egSingle) 1
        ⟨i.ready_queue ++ [seedNode egSingle true], i.eval_map, i.bufs, []⟩ =
        some ⟨[], em1, forward_node_eval egSingle 0 s, [0]⟩ := by
      rw [hiq, hie, hib]; exact hrun
    exact ⟨_, forward_eval_intro egSingle 1 t i _ hr, rfl⟩


/-- Witness for C4: a concrete width-1 chain with kernels `_ ↦ [5]`,
`x ↦ [head x + 1]`, `id`, and the one-node identity graph. -/
theorem forward_eval_chain_identity_witness :
    (∃ i2, forward_eval (chainGraph 1 1 1 1 (fun _ => [5])
        (fun x => [x.headD 0 + 1]) (fun x => x)) 3 0
        ⟨[], fun _ => 0, fun _ => ([2], [9]), 0, 0, 0, 0⟩ = some i2 ∧
      (i2.bufs 2).2 = [6] ∧ (i2.bufs 0).1 = [2]) ∧
    (∃ i2, forward_eval egSingle 1 0
        ⟨[], fun _ => 0, fun _ => ([3], [7]), 0, 0, 0, 0⟩ = some i2 ∧
      (i2.bufs 0).2 = [3]) := by
  constructor
  · obtain ⟨i2, he, h2, h0⟩ := forward_eval_chain_identity.1 1 1 1 1
      (fun _ => [5]) (fun x => [x.headD 0 + 1]) (fun x => x) [2]
      (fun _ => ([2], [9])) ⟨[], fun _ => 0, fun _ => ([2], [9]), 0, 0, 0, 0⟩ 0
      rfl (by decide) (by decide) (by decide) (by decide) rfl rfl rfl
    refine ⟨i2, he, ?_, h0⟩
    rw [h2]; decide
  · obtain ⟨i2, he, h0⟩ := forward_eval_chain_identity.2
      (fun _ => ([3], [7])) ⟨[], fun _ => 0, fun _ => ([3], [7]), 0, 0, 0, 0⟩ 0
      rfl rfl rfl
    exact ⟨i2, he, h0⟩


/-! ## The scheduling correctness development (claims about `traverse_graph`) -/

/-- The declared graph invariants, relative to one traversal direction:
consistency of the nodes' edge-id lists with the edge table, no duplicate
edge ids, a sole seed (the spec's designated sole global input resp.
output), and acyclicity expressed by a topological numbering. -/
structure Hyps (g : Graph) (fwd : Bool) where
  rank : Nat → Nat
  nodesNodup : g.nodes.Nodup
  seedMem : seedNode g fwd ∈ g.nodes
  succNodup : ∀ v ∈ g.nodes, (succEdges g fwd v).Nodup
  predNodup : ∀ v ∈ g.nodes, (predEdges g fwd v).Nodup
  succConsist : ∀ v ∈ g.nodes, ∀ e ∈ succEdges g fwd v,
    eSrc g fwd e = v ∧ eDst g fwd e ∈ g.nodes ∧ e ∈ predEdges g fwd (eDst g fwd e)
  predConsist : ∀ v ∈ g.nodes, ∀ e ∈ predEdges g fwd v,
    eDst g fwd e = v ∧ eSrc g fwd e ∈ g.nodes ∧ e ∈ succEdges g fwd (eSrc g fwd e)
  soleSeed : ∀ v ∈ g.nodes, (predEdges g fwd v = [] ↔ v = seedNode g fwd)
  rankOK : ∀ v ∈ g.nodes, ∀ e ∈ predEdges g fwd v, rank (eSrc g fwd e) < rank v

/-- Reachability from the direction's seed along direction-appropriate
edges. -/
inductive Reach (g : Graph) (fwd : Bool) : Nat → Prop where
  | seed : Reach g fwd (seedNode g fwd)
  | step : ∀ u e, Reach g fwd u → e ∈ succEdges g fwd u →
      Reach g fwd (eDst g fwd e)

theorem reach_mem (g : Graph) (fwd : Bool) (H : Hyps g fwd) :
    ∀ n, Reach g fwd n → n ∈ g.nodes := by
  intro n h
  induction h with
  | seed => exact H.seedMem
  | step u e _ he ih => exact (H.succConsist u ih e he).2.1

theorem reach_all (g : Graph) (fwd : Bool) (H : Hyps g fwd) :
    ∀ n ∈ g.nodes, Reach g fwd n := by
  have key : ∀ k n, n ∈ g.nodes → H.rank n < k → Reach g fwd n := by
    intro k
    induction k with
    | zero => intro n _ h; omega
    | succ k ih =>
      intro n hn hr
      by_cases hseed : n = seedNode g fwd
      · subst hseed; exact Reach.seed
      · have hne : predEdges g fwd n ≠ [] := fun h =>
          hseed ((H.soleSeed n hn).mp h)
        obtain ⟨e, he⟩ := List.exists_mem_of_ne_nil _ hne
        obtain ⟨hdst, hsrcmem, hsucc⟩ := H.predConsist n hn e he
        have hru := ih (eSrc g fwd e) hsrcmem
          (by have := H.rankOK n hn e he; omega)
        have hstep := Reach.step _ _ hru hsucc
        rwa [hdst] at hstep
  exact fun n hn => key (H.rank n + 1) n hn (by omega)

/-- Minimum selection over a nonempty list. -/
theorem exists_rank_min (f : Nat → Nat) :
    ∀ l : List Nat, l ≠ [] → ∃ a ∈ l, ∀ b ∈ l, f a ≤ f b := by
  intro l
  induction l with
  | nil => intro h; exact absurd rfl h
  | cons a t ih =>
    intro _
    cases t with
    | nil =>
      refine ⟨a, List.mem_cons_self _ _, ?_⟩
      intro b hb
      rw [List.mem_singleton.mp hb]
    | cons x y =>
      obtain ⟨m, hm, hmin⟩ := ih (by simp)
      by_cases hle : f a ≤ f m
      · refine ⟨a, List.mem_cons_self _ _, ?_⟩
        intro b hb
        rcases List.mem_cons.mp hb with h | h
        · rw [h]
        · exact le_trans hle (hmin b h)
      · refine ⟨m, List.mem_cons_of_mem _ hm, ?_⟩
        intro b hb
        rcases List.mem_cons.mp hb with h | h
        · rw [h]; omega
        · exact hmin b h

/-- The number of direction-appropriate edges of `n` whose delivering end
has already been visited (the part of `n`'s arrival counter contributed by
edge deliveries). -/
def dcount (g : Graph) (fwd : Bool) (V : List Nat) (n : Nat) : Nat :=
  (predEdges g fwd n).countP (fun e => decide (eSrc g fwd e ∈ V))

theorem dcount_le (g : Graph) (fwd : Bool) (V : List Nat) (n : Nat) :
    dcount g fwd V n ≤ needCount g fwd n :=
  List.countP_le_length _

theorem dcount_eq_need_iff (g : Graph) (fwd : Bool) (V : List Nat) (n : Nat) :
    dcount g fwd V n = needCount g fwd n ↔
      ∀ e ∈ predEdges g fwd n, eSrc g fwd e ∈ V := by
  unfold dcount needCount
  rw [List.countP_eq_length]
  constructor
  · intro h e he
    simpa using h e he
  · intro h e he
    simpa using h e he

theorem countP_or_split (l : List Nat) (p q : Nat → Bool)
    (h : ∀ a ∈ l, ¬(p a = true ∧ q a = true)) :
    l.countP (fun a => p a || q a) = l.countP p + l.countP q := by
  induction l with
  | nil => simp
  | cons a t ih =>
    simp only [List.countP_cons]
    rw [ih (fun b hb => h b (List.mem_cons_of_mem _ hb))]
    have ha := h a (List.mem_cons_self _ _)
    by_cases hp : p a = true <;> by_cases hq : q a = true <;>
      simp [hp, hq] at ha ⊢ <;> omega

/-- Visiting a fresh node `c` adds exactly the `c`-edges to a node's
delivery count. -/
theorem dcount_append (g : Graph) (fwd : Bool) (V : List Nat) (c n : Nat)
    (hc : c ∉ V) :
    dcount g fwd (V ++ [c]) n = dcount g fwd V n +
      (predEdges g fwd n).countP (fun e => decide (eSrc g fwd e = c)) := by
  unfold dcount
  rw [← countP_or_split]
  · apply List.countP_congr
    intro e _
    constructor
    · intro h
      simp only [decide_eq_true_eq, List.mem_append, List.mem_singleton] at h
      simp only [Bool.or_eq_true, decide_eq_true_eq]
      exact h
    · intro h
      simp only [Bool.or_eq_true, decide_eq_true_eq] at h
      simp only [decide_eq_true_eq, List.mem_append, List.mem_singleton]
      exact h
  · intro e _ hcon
    simp only [decide_eq_true_eq] at hcon
    exact hc (hcon.2 ▸ hcon.1)

/-- Counting bijection between a receiver's delivering edges from `c` and
`c`'s own direction-appropriate edge list. -/
theorem cnt_pred_eq_cnt_succ (g : Graph) (fwd : Bool) (H : Hyps g fwd)
    (n c : Nat) (hn : n ∈ g.nodes) (hc : c ∈ g.nodes) :
    (predEdges g fwd n).countP (fun e => decide (eSrc g fwd e = c)) =
      (succEdges g fwd c).countP (fun e => decide (eDst g fwd e = n)) := by
  rw [List.countP_eq_length_filter, List.countP_eq_length_filter]
  apply List.Perm.length_eq
  apply List.perm_of_nodup_nodup_toFinset_eq
  · exact (H.predNodup n hn).filter _
  · exact (H.succNodup c hc).filter _
  · ext e
    simp only [List.mem_toFinset, List.mem_filter, decide_eq_true_eq]
    constructor
    · rintro ⟨he, hsrc⟩
      obtain ⟨hdst, _, hsucc⟩ := H.predConsist n hn e he
      exact ⟨hsrc ▸ hsucc, hdst⟩
    · rintro ⟨he, hdst⟩
      obtain ⟨hsrc, _, hpred⟩ := H.succConsist c hc e he
      exact ⟨hdst ▸ hpred, hsrc⟩


/-- Full characterisation of the inner edge loop: final counters, and the
nodes appended to the ready queue (a node is pushed exactly when its
counter crosses its direction-appropriate edge count). -/
theorem processEdges_spec (g : Graph) (fwd : Bool) :
    ∀ es em acc, acc.Nodup →
      (∀ n ∈ acc, needCount g fwd n ≤ em n) →
      ((processEdges g fwd es em acc).1 =
        fun n => em n + es.countP (fun e => decide (eDst g fwd e = n))) ∧
      (processEdges g fwd es em acc).2.Nodup ∧
      (∀ n, n ∈ (processEdges g fwd es em acc).2 ↔ n ∈ acc ∨
        (em n < needCount g fwd n ∧ needCount g fwd n ≤
          em n + es.countP (fun e => decide (eDst g fwd e = n)))) ∧
      (∀ n ∈ (processEdges g fwd es em acc).2,
        needCount g fwd n ≤ (processEdges g fwd es em acc).1 n) := by
  intro es
  induction es with
  | nil =>
    intro em acc hnd hge
    refine ⟨by funext n; simp [processEdges], hnd, ?_, ?_⟩
    · intro n
      simp only [processEdges, List.countP_nil]
      constructor
      · intro h; exact Or.inl h
      · rintro (h | h)
        · exact h
        · omega
    · intro n hn
      exact hge n hn
  | cons e es ih =>
    intro em acc hnd hge
    have hbm : bump em (eDst g fwd e) (eDst g fwd e) = em (eDst g fwd e) + 1 := by
      simp [bump]
    have hbo : ∀ n, n ≠ eDst g fwd e → bump em (eDst g fwd e) n = em n := by
      intro n hn; simp [bump, hn]
    have hcnt : ∀ n, (e :: es).countP (fun x => decide (eDst g fwd x = n)) =
        es.countP (fun x => decide (eDst g fwd x = n)) +
          (if n = eDst g fwd e then 1 else 0) := by
      intro n
      rw [List.countP_cons]
      by_cases hnm : n = eDst g fwd e
      · simp [hnm]
      · have hne : ¬(eDst g fwd e = n) := fun h => hnm h.symm
        simp [hne, hnm]
    have hred : processEdges g fwd (e :: es) em acc =
        processEdges g fwd es (bump em (eDst g fwd e))
          (if bump em (eDst g fwd e) (eDst g fwd e) =
              needCount g fwd (eDst g fwd e)
            then acc ++ [eDst g fwd e] else acc) := rfl
    by_cases hpush : bump em (eDst g fwd e) (eDst g fwd e) =
        needCount g fwd (eDst g fwd e)
    · have hpush1 : em (eDst g fwd e) + 1 = needCount g fwd (eDst g fwd e) := by
        rw [← hbm]; exact hpush
      have hmnacc : (eDst g fwd e) ∉ acc := by
        intro hmem; have := hge _ hmem; omega
      have hnd1 : (acc ++ [eDst g fwd e]).Nodup := by
        simp [List.nodup_append, hnd, hmnacc]
      have hge1 : ∀ n ∈ acc ++ [eDst g fwd e],
          needCount g fwd n ≤ bump em (eDst g fwd e) n := by
        intro n hn
        rcases List.mem_append.mp hn with h | h
        · have := hge n h
          by_cases hnm : n = eDst g fwd e
          · subst hnm; omega
          · rw [hbo n hnm]; exact this
        · rw [List.mem_singleton.mp h]; omega
      obtain ⟨ih1, ih2, ih3, ih4⟩ := ih (bump em (eDst g fwd e))
        (acc ++ [eDst g fwd e]) hnd1 hge1
      rw [hred, if_pos hpush]
      refine ⟨?_, ih2, ?_, ih4⟩
      · rw [ih1]
        funext n
        rw [hcnt n]
        by_cases hnm : n = eDst g fwd e
        · subst hnm; rw [hbm, if_pos rfl]; omega
        · rw [hbo n hnm, if_neg hnm]; omega
      · intro n
        rw [ih3 n, hcnt n]
        simp only [List.mem_append, List.mem_singleton]
        by_cases hnm : n = eDst g fwd e
        · subst hnm
          rw [hbm, if_pos rfl]
          constructor
          · intro _
            right
            omega
          · intro _
            exact Or.inl (Or.inr rfl)
        · rw [hbo n hnm, if_neg hnm]
          constructor
          · rintro ((h | h) | h)
            · exact Or.inl h
            · exact absurd h hnm
            · exact Or.inr (by omega)
          · rintro (h | h)
            · exact Or.inl (Or.inl h)
            · exact Or.inr (by omega)
    · have hpush1 : em (eDst g fwd e) + 1 ≠ needCount g fwd (eDst g fwd e) := by
        rw [← hbm]; exact hpush
      have hge1 : ∀ n ∈ acc, needCount g fwd n ≤ bump em (eDst g fwd e) n := by
        intro n hn
        have := hge n hn
        by_cases hnm : n = eDst g fwd e
        · subst hnm; omega
        · rw [hbo n hnm]; exact this
      obtain ⟨ih1, ih2, ih3, ih4⟩ := ih (bump em (eDst g fwd e)) acc hnd hge1
      rw [hred, if_neg hpush]
      refine ⟨?_, ih2, ?_, ih4⟩
      · rw [ih1]
        funext n
        rw [hcnt n]
        by_cases hnm : n = eDst g fwd e
        · subst hnm; rw [hbm, if_pos rfl]; omega
        · rw [hbo n hnm, if_neg hnm]; omega
      · intro n
        rw [ih3 n, hcnt n]
        by_cases hnm : n = eDst g fwd e
        · subst hnm
          rw [hbm, if_pos rfl]
          constructor
          · rintro (h | h)
            · exact Or.inl h
            · exact Or.inr (by omega)
          · rintro (h | h)
            · exact Or.inl h
            · exact Or.inr (by omega)
        · rw [hbo n hnm, if_neg hnm, Nat.add_zero]


/-- The loop invariant of `traverse_graph`: queue and visits are disjoint
duplicate-free node lists, every counter equals its own-visit indicator plus
its delivery count, a pending node is queued exactly when all its producers
are visited, and the visited set is producer-closed. -/
structure Inv (g : Graph) (fwd : Bool) (st : TravState) : Prop where
  vNodup : st.visits.Nodup
  qNodup : st.queue.Nodup
  disj : ∀ n, ¬(n ∈ st.visits ∧ n ∈ st.queue)
  vMem : ∀ n ∈ st.visits, n ∈ g.nodes
  qMem : ∀ n ∈ st.queue, n ∈ g.nodes
  emEq : ∀ n ∈ g.nodes, st.em n =
    (if n ∈ st.visits then 1 else 0) + dcount g fwd st.visits n
  qIff : ∀ n ∈ g.nodes, n ∉ st.visits →
    (n ∈ st.queue ↔ ∀ e ∈ predEdges g fwd n, eSrc g fwd e ∈ st.visits)
  vClosed : ∀ n ∈ st.visits, ∀ e ∈ predEdges g fwd n, eSrc g fwd e ∈ st.visits

theorem inv_init (g : Graph) (fwd : Bool) (H : Hyps g fwd) (s : Bufs) :
    Inv g fwd ⟨[seedNode g fwd], fun _ => 0, s, []⟩ := by
  have hd0 : ∀ n, dcount g fwd [] n = 0 := by
    intro n
    unfold dcount
    apply List.countP_eq_zero.mpr
    intro e _
    simp
  refine ⟨List.nodup_nil, List.nodup_singleton _, ?_, ?_, ?_, ?_, ?_, ?_⟩
  · rintro n ⟨h1, _⟩; cases h1
  · intro n hn; cases hn
  · intro n hn
    rw [List.mem_singleton.mp hn]; exact H.seedMem
  · intro n _
    simp [hd0]
  · intro n hn _
    constructor
    · intro hq e he
      rw [(H.soleSeed n hn).mpr (List.mem_singleton.mp hq)] at he
      cases he
    · intro h
      have hemp : predEdges g fwd n = [] := by
        by_contra hne
        obtain ⟨e, he⟩ := List.exists_mem_of_ne_nil _ hne
        exact absurd (h e he) (List.not_mem_nil _)
      rw [List.mem_singleton]
      exact (H.soleSeed n hn).mp hemp
  · intro n hn; cases hn

/-- One loop iteration preserves the invariant and appends the popped node
to the visit list. -/
theorem stepOnce_inv (g : Graph) (fwd : Bool) (H : Hyps g fwd)
    (vis : Nat → Bufs → Bufs) (c : Nat) (rest : List Nat) (em : Nat → Nat)
    (s : Bufs) (vl : List Nat) (hInv : Inv g fwd ⟨c :: rest, em, s, vl⟩) :
    Inv g fwd (stepOnce g fwd vis ⟨c :: rest, em, s, vl⟩) ∧
    (stepOnce g fwd vis ⟨c :: rest, em, s, vl⟩).visits = vl ++ [c] := by
  have hvNodup : vl.Nodup := hInv.vNodup
  have hqNodup : (c :: rest).Nodup := hInv.qNodup
  have hdisj : ∀ n, ¬(n ∈ vl ∧ n ∈ c :: rest) := hInv.disj
  have hvMem : ∀ n ∈ vl, n ∈ g.nodes := hInv.vMem
  have hqMem : ∀ n ∈ c :: rest, n ∈ g.nodes := hInv.qMem
  have hemEq : ∀ n ∈ g.nodes, em n =
      (if n ∈ vl then 1 else 0) + dcount g fwd vl n := hInv.emEq
  have hqIff : ∀ n ∈ g.nodes, n ∉ vl →
      (n ∈ c :: rest ↔ ∀ e ∈ predEdges g fwd n, eSrc g fwd e ∈ vl) := hInv.qIff
  have hvClosed : ∀ n ∈ vl, ∀ e ∈ predEdges g fwd n,
      eSrc g fwd e ∈ vl := hInv.vClosed
  have hcmem : c ∈ g.nodes := hqMem c (List.mem_cons_self _ _)
  have hcnv : c ∉ vl := fun h => hdisj c ⟨h, List.mem_cons_self _ _⟩
  have hcrest : c ∉ rest := (List.nodup_cons.mp hqNodup).1
  have hrestnd : rest.Nodup := (List.nodup_cons.mp hqNodup).2
  have hallc : ∀ e ∈ predEdges g fwd c, eSrc g fwd e ∈ vl :=
    (hqIff c hcmem hcnv).mp (List.mem_cons_self _ _)
  have hdcc : dcount g fwd vl c = needCount g fwd c :=
    (dcount_eq_need_iff g fwd vl c).mpr hallc
  have hemc : em c = needCount g fwd c := by
    have h := hemEq c hcmem
    rw [if_neg hcnv, hdcc] at h
    omega
  have hbc : bump em c c = em c + 1 := by simp [bump]
  have hbo : ∀ n, n ≠ c → bump em c n = em n := by
    intro n hn; simp [bump, hn]
  have hrest_full : ∀ n ∈ rest,
      em n = needCount g fwd n ∧ n ∉ vl ∧ n ∈ g.nodes := by
    intro n hn
    have hnq : n ∈ c :: rest := List.mem_cons_of_mem _ hn
    have hnmem := hqMem n hnq
    have hnv : n ∉ vl := fun h => hdisj n ⟨h, hnq⟩
    have hall := (hqIff n hnmem hnv).mp hnq
    have h := hemEq n hnmem
    rw [if_neg hnv, (dcount_eq_need_iff g fwd vl n).mpr hall] at h
    exact ⟨by omega, hnv, hnmem⟩
  have hge : ∀ n ∈ rest, needCount g fwd n ≤ bump em c n := by
    intro n hn
    obtain ⟨h1, _, _⟩ := hrest_full n hn
    have hnc : n ≠ c := fun h => hcrest (h ▸ hn)
    rw [hbo n hnc]
    omega
  obtain ⟨hp1, hp2, hp3, hp4⟩ := processEdges_spec g fwd (succEdges g fwd c)
    (bump em c) rest hrestnd hge
  have hp1' : ∀ m, (processEdges g fwd (succEdges g fwd c) (bump em c) rest).1 m =
      bump em c m +
        (succEdges g fwd c).countP (fun e => decide (eDst g fwd e = m)) := by
    intro m
    rw [hp1]
  have hdapp : ∀ n ∈ g.nodes, dcount g fwd (vl ++ [c]) n =
      dcount g fwd vl n +
        (succEdges g fwd c).countP (fun e => decide (eDst g fwd e = n)) := by
    intro n hn
    rw [dcount_append g fwd vl c n hcnv,
      cnt_pred_eq_cnt_succ g fwd H n c hn hcmem]
  refine ⟨?_, rfl⟩
  show Inv g fwd ⟨(processEdges g fwd (succEdges g fwd c) (bump em c) rest).2,
    (processEdges g fwd (succEdges g fwd c) (bump em c) rest).1,
    vis c s, vl ++ [c]⟩
  refine ⟨?_, hp2, ?_, ?_, ?_, ?_, ?_, ?_⟩
  · simp [List.nodup_append, hvNodup, hcnv]
  · -- disjointness
    rintro n ⟨hv, hq⟩
    rcases (hp3 n).mp hq with hr | ⟨hlt, _⟩
    · rcases List.mem_append.mp hv with h | h
      · exact hdisj n ⟨h, List.mem_cons_of_mem _ hr⟩
      · exact hcrest (List.mem_singleton.mp h ▸ hr)
    · rcases List.mem_append.mp hv with h | h
      · have hnc : n ≠ c := fun he => hcnv (he ▸ h)
        rw [hbo n hnc] at hlt
        have hdn : dcount g fwd vl n = needCount g fwd n :=
          (dcount_eq_need_iff g fwd vl n).mpr (hvClosed n h)
        have hem := hemEq n (hvMem n h)
        rw [if_pos h, hdn] at hem
        omega
      · rw [List.mem_singleton.mp h, hbc] at hlt
        omega
  · -- visits ⊆ nodes
    intro n hn
    rcases List.mem_append.mp hn with h | h
    · exact hvMem n h
    · exact List.mem_singleton.mp h ▸ hcmem
  · -- queue ⊆ nodes
    intro n hn
    rcases (hp3 n).mp hn with hr | ⟨hlt, hge2⟩
    · exact hqMem n (List.mem_cons_of_mem _ hr)
    · have hkpos : 0 <
          (succEdges g fwd c).countP (fun e => decide (eDst g fwd e = n)) := by
        omega
      obtain ⟨e, he, hde⟩ := List.countP_pos_iff.mp hkpos
      have hdn : eDst g fwd e = n := by simpa using hde
      exact hdn ▸ (H.succConsist c hcmem e he).2.1
  · -- counters
    intro n hn
    dsimp only
    rw [hp1' n, hdapp n hn]
    by_cases hnc : n = c
    · rw [hnc, hbc]
      have hif : (if c ∈ vl ++ [c] then 1 else 0) = 1 := if_pos (by simp)
      rw [hif]
      omega
    · rw [hbo n hnc]
      have hif : (if n ∈ vl ++ [c] then 1 else 0) =
          (if n ∈ vl then 1 else 0) := by
        by_cases hnv : n ∈ vl
        · rw [if_pos hnv, if_pos (List.mem_append.mpr (Or.inl hnv))]
        · rw [if_neg hnv, if_neg (fun h => by
            rcases List.mem_append.mp h with h1 | h1
            · exact hnv h1
            · exact hnc (List.mem_singleton.mp h1))]
      rw [hif]
      have hem := hemEq n hn
      omega
  · -- queued iff all producers visited
    intro n hn hnv'
    dsimp only at hnv' ⊢
    have hnv : n ∉ vl := fun h => hnv' (List.mem_append.mpr (Or.inl h))
    have hnc : n ≠ c := fun h =>
      hnv' (List.mem_append.mpr (Or.inr (List.mem_singleton.mpr h)))
    have hemn : em n = dcount g fwd vl n := by
      have h := hemEq n hn
      rw [if_neg hnv] at h
      omega
    have hle1 : dcount g fwd vl n ≤ needCount g fwd n := dcount_le g fwd vl n
    have hle2 : dcount g fwd (vl ++ [c]) n ≤ needCount g fwd n :=
      dcount_le g fwd _ n
    rw [← dcount_eq_need_iff g fwd (vl ++ [c]) n]
    rw [hp3 n, hbo n hnc, hemn]
    rw [hdapp n hn] at hle2 ⊢
    constructor
    · rintro (hr | ⟨hlt, hge2⟩)
      · obtain ⟨h1, _, _⟩ := hrest_full n hr
        rw [hemn] at h1
        omega
      · omega
    · intro heq
      by_cases hk : (succEdges g fwd c).countP
          (fun e => decide (eDst g fwd e = n)) = 0
      · left
        have hdn : dcount g fwd vl n = needCount g fwd n := by omega
        have hq : n ∈ c :: rest := (hqIff n hn hnv).mpr
          ((dcount_eq_need_iff g fwd vl n).mp hdn)
        rcases List.mem_cons.mp hq with h | h
        · exact absurd h hnc
        · exact h
      · right
        omega
  · -- producer-closed
    intro n hn e he
    rcases List.mem_append.mp hn with h | h
    · exact List.mem_append.mpr (Or.inl (hvClosed n h e he))
    · rw [List.mem_singleton.mp h] at he
      exact List.mem_append.mpr (Or.inl (hallc e he))


theorem stepOnce_empty (g : Graph) (fwd : Bool) (vis : Nat → Bufs → Bufs)
    (st : TravState) (h : st.queue = []) : stepOnce g fwd vis st = st := by
  obtain ⟨q, em, sb, vl⟩ := st
  simp only at h
  subst h
  rfl

theorem stepOnce_inv_any (g : Graph) (fwd : Bool) (H : Hyps g fwd)
    (vis : Nat → Bufs → Bufs) (st : TravState) (h : Inv g fwd st) :
    Inv g fwd (stepOnce g fwd vis st) := by
  obtain ⟨q, em, sb, vl⟩ := st
  cases q with
  | nil => exact h
  | cons c rest => exact (stepOnce_inv g fwd H vis c rest em sb vl h).1

theorem nodup_subset_length (l l2 : List Nat) (hnd : l.Nodup)
    (hsub : ∀ n ∈ l, n ∈ l2) : l.length ≤ l2.length := by
  calc l.length = l.toFinset.card := (List.toFinset_card_of_nodup hnd).symm
    _ ≤ l2.toFinset.card := by
        apply Finset.card_le_card
        intro a ha
        rw [List.mem_toFinset] at ha ⊢
        exact hsub a ha
    _ ≤ l2.length := List.toFinset_card_le l2

/-- With an empty queue, the invariant forces every node to have been
visited (acyclicity: pick an unvisited node of minimal rank). -/
theorem queue_empty_all_visited (g : Graph) (fwd : Bool) (H : Hyps g fwd)
    (em : Nat → Nat) (s : Bufs) (vl : List Nat)
    (hInv : Inv g fwd ⟨[], em, s, vl⟩) :
    ∀ n ∈ g.nodes, n ∈ vl := by
  have hqIff : ∀ n ∈ g.nodes, n ∉ vl →
      (n ∈ ([] : List Nat) ↔ ∀ e ∈ predEdges g fwd n, eSrc g fwd e ∈ vl) :=
    hInv.qIff
  by_contra hcon
  push_neg at hcon
  obtain ⟨n0, hn0, hn0v⟩ := hcon
  have hSne : g.nodes.filter (fun v => decide (v ∉ vl)) ≠ [] := by
    intro h
    have hmem : n0 ∈ g.nodes.filter (fun v => decide (v ∉ vl)) := by
      rw [List.mem_filter]
      exact ⟨hn0, by simpa using hn0v⟩
    rw [h] at hmem
    cases hmem
  obtain ⟨m, hmS, hmin⟩ := exists_rank_min H.rank _ hSne
  have hmmem : m ∈ g.nodes := (List.mem_filter.mp hmS).1
  have hmnv : m ∉ vl := by
    have := (List.mem_filter.mp hmS).2
    simpa using this
  have hprod : ∀ e ∈ predEdges g fwd m, eSrc g fwd e ∈ vl := by
    intro e he
    obtain ⟨_, hsmem, _⟩ := H.predConsist m hmmem e he
    by_contra hsv
    have hsS : eSrc g fwd e ∈ g.nodes.filter (fun v => decide (v ∉ vl)) := by
      rw [List.mem_filter]
      exact ⟨hsmem, by simpa using hsv⟩
    have h1 := hmin _ hsS
    have h2 := H.rankOK m hmmem e he
    omega
  exact absurd ((hqIff m hmmem hmnv).mpr hprod) (List.not_mem_nil m)

/-- The main loop theorem: under the invariants, `nodes.length` fuel makes
the loop terminate with an empty queue having visited every node. -/
theorem runLoop_complete (g : Graph) (fwd : Bool) (H : Hyps g fwd)
    (vis : Nat → Bufs → Bufs) :
    ∀ fuel st, Inv g fwd st → g.nodes.length ≤ fuel + st.visits.length →
      ∃ st', runLoop g fwd vis fuel st = some st' ∧ st'.queue = [] ∧
        Inv g fwd st' ∧ (∀ n ∈ g.nodes, n ∈ st'.visits) ∧
        ∃ tail, st'.visits = st.visits ++ tail := by
  intro fuel
  induction fuel with
  | zero =>
    rintro ⟨q, em, sb, vl⟩ hInv hbound
    cases q with
    | nil =>
      refine ⟨⟨[], em, sb, vl⟩, by simp [runLoop], rfl, hInv, ?_, [], by simp⟩
      exact queue_empty_all_visited g fwd H em sb vl hInv
    | cons c rest =>
      exfalso
      have hc : c ∈ g.nodes := hInv.qMem c (List.mem_cons_self _ _)
      have hcnv : c ∉ vl := fun h => hInv.disj c ⟨h, List.mem_cons_self _ _⟩
      have hnd : (c :: vl).Nodup := List.nodup_cons.mpr ⟨hcnv, hInv.vNodup⟩
      have hsub : ∀ n ∈ c :: vl, n ∈ g.nodes := by
        intro n hn
        rcases List.mem_cons.mp hn with h | h
        · exact h ▸ hc
        · exact hInv.vMem n h
      have hlen := nodup_subset_length (c :: vl) g.nodes hnd hsub
      simp only [List.length_cons] at hlen
      simp only at hbound
      omega
  | succ k ih =>
    rintro ⟨q, em, sb, vl⟩ hInv hbound
    cases q with
    | nil =>
      refine ⟨⟨[], em, sb, vl⟩, by simp [runLoop], rfl, hInv, ?_, [], by simp⟩
      exact queue_empty_all_visited g fwd H em sb vl hInv
    | cons c rest =>
      obtain ⟨hInv2, hvis⟩ := stepOnce_inv g fwd H vis c rest em sb vl hInv
      have hb2 : g.nodes.length ≤
          k + (stepOnce g fwd vis ⟨c :: rest, em, sb, vl⟩).visits.length := by
        rw [hvis]
        simp only [List.length_append, List.length_singleton]
        simp only at hbound
        omega
      obtain ⟨st', h1, h2, h3, h4, tail, h5⟩ := ih _ hInv2 hb2
      refine ⟨st', ?_, h2, h3, h4, [c] ++ tail, ?_⟩
      · simp only [runLoop]
        exact h1
      · rw [h5, hvis]
        simp

/-- Readiness facts that follow from the invariant: every queued node has
all its producers visited and its counter exactly at its edge count, and an
unvisited node is queued precisely when its counter has reached the
count. -/
theorem inv_queue_ready (g : Graph) (fwd : Bool) (st : TravState)
    (hInv : Inv g fwd st) :
    (∀ n ∈ st.queue, (∀ e ∈ predEdges g fwd n, eSrc g fwd e ∈ st.visits) ∧
      st.em n = needCount g fwd n) ∧
    (∀ n ∈ g.nodes, n ∉ st.visits →
      (n ∈ st.queue ↔ st.em n = needCount g fwd n)) := by
  have hready : ∀ n ∈ st.queue,
      (∀ e ∈ predEdges g fwd n, eSrc g fwd e ∈ st.visits) ∧
        st.em n = needCount g fwd n := by
    intro n hn
    have hnmem := hInv.qMem n hn
    have hnv : n ∉ st.visits := fun h => hInv.disj n ⟨h, hn⟩
    have hall := (hInv.qIff n hnmem hnv).mp hn
    refine ⟨hall, ?_⟩
    have h := hInv.emEq n hnmem
    rw [if_neg hnv, (dcount_eq_need_iff g fwd st.visits n).mpr hall] at h
    omega
  refine ⟨hready, ?_⟩
  intro n hnmem hnv
  constructor
  · intro hq
    exact (hready n hq).2
  · intro hem
    apply (hInv.qIff n hnmem hnv).mpr
    rw [← dcount_eq_need_iff g fwd st.visits n]
    have h := hInv.emEq n hnmem
    rw [if_neg hnv] at h
    have hle := dcount_le g fwd st.visits n
    omega


/-- C1: for every graph satisfying the declared invariants (edge-id lists
consistent with the edge table, duplicate-free lists, sole seed,
acyclicity), a single `traverse_graph` invocation applies the injected
visitor to every reachable node exactly once — in the forward direction
seeded at `start_node` (`fwd = true`) and in the reverse direction seeded
at `end_node` (`fwd = false`) — the visited set being exactly `g.nodes`
(all of which are reachable from the seed), and the loop terminates with
the ready queue empty. -/
theorem traverse_graph_visits_each_node_once (g : Graph) (fwd : Bool)
    (H : Hyps g fwd) (vis : Nat → Bufs → Bufs) (s : Bufs) :
    (∃ st', runLoop g fwd vis g.nodes.length
        ⟨[seedNode g fwd], fun _ => 0, s, []⟩ = some st' ∧
      st'.queue = [] ∧ st'.visits.Nodup ∧
      (∀ n, n ∈ st'.visits ↔ n ∈ g.nodes) ∧
      (∀ n ∈ st'.visits, st'.visits.count n = 1)) ∧
    (∀ n, Reach g fwd n ↔ n ∈ g.nodes) ∧
    (∀ inst : Inst, inst.ready_queue = [] → inst.eval_map = (fun _ => 0) →
      ∃ i', traverse_graph g vis fwd g.nodes.length inst = some i' ∧
        i'.ready_queue = []) := by
  obtain ⟨st', h1, h2, h3, h4, _, _⟩ := runLoop_complete g fwd H vis
    g.nodes.length ⟨[seedNode g fwd], fun _ => 0, s, []⟩
    (inv_init g fwd H s) (by simp)
  refine ⟨⟨st', h1, h2, h3.vNodup, ?_, ?_⟩, ?_, ?_⟩
  · intro n
    exact ⟨fun h => h3.vMem n h, fun h => h4 n h⟩
  · intro n hn
    exact List.count_eq_one_of_mem h3.vNodup hn
  · intro n
    exact ⟨reach_mem g fwd H n, reach_all g fwd H n⟩
  · intro inst hq he
    obtain ⟨st2, k1, k2, _, _, _, _⟩ := runLoop_complete g fwd H vis
      g.nodes.length ⟨[seedNode g fwd], fun _ => 0, inst.bufs, []⟩
      (inv_init g fwd H inst.bufs) (by simp)
    have hr : runLoop g fwd vis g.nodes.length
        ⟨inst.ready_queue ++ [seedNode g fwd], inst.eval_map, inst.bufs, []⟩ =
        some st2 := by
      rw [hq, he]
      exact k1
    exact ⟨_, traverse_graph_intro g vis fwd g.nodes.length inst st2 hr, k2⟩

/-- C2: at every state reachable during a traversal, a node sits in the
ready queue only if all of its direction-appropriate producers have been
visited, its arrival counter then being exactly its direction-appropriate
edge count; and an unvisited node is in the queue precisely when its
arrival counter equals that count. -/
theorem enqueued_only_when_counter_full (g : Graph) (fwd : Bool)
    (H : Hyps g fwd) (vis : Nat → Bufs → Bufs) (s : Bufs) (k : Nat)
    (st : TravState)
    (hst : st = (stepOnce g fwd vis)^[k] ⟨[seedNode g fwd], fun _ => 0, s, []⟩) :
    (∀ n ∈ st.queue, (∀ e ∈ predEdges g fwd n, eSrc g fwd e ∈ st.visits) ∧
      st.em n = needCount g fwd n) ∧
    (∀ n ∈ g.nodes, n ∉ st.visits →
      (n ∈ st.queue ↔ st.em n = needCount g fwd n)) := by
  subst hst
  have hInvK : ∀ j, Inv g fwd
      ((stepOnce g fwd vis)^[j] ⟨[seedNode g fwd], fun _ => 0, s, []⟩) := by
    intro j
    induction j with
    | zero => simpa using inv_init g fwd H s
    | succ j2 ihj =>
      rw [Function.iterate_succ_apply']
      exact stepOnce_inv_any g fwd H vis _ ihj
  exact inv_queue_ready g fwd _ (hInvK k)

/-- Diamond graph: edges `1 : 0 → 1`, `2 : 0 → 2`, `3 : 1 → 3`,
`4 : 2 → 3`; node 3 has two producers. -/
def egDiamond : Graph :=
  ⟨[0, 1, 2, 3], 0, 3,
    fun e => if e = 1 then (0, 1) else if e = 2 then (0, 2)
      else if e = 3 then (1, 3) else (2, 3),
    fun v =>
      if v = 0 then
        ⟨[], [1, 2], [], [[1], [1]], fun _ => 0,
          fun e => if e = 1 then 0 else 1, 1, 2, fun x => x, fun x => x,
          fun sz => sz.headD 0⟩
      else if v = 1 then
        ⟨[1], [3], [[1]], [[1]], fun _ => 0, fun _ => 0, 1, 1, fun x => x,
          fun x => x, fun sz => sz.headD 0⟩
      else if v = 2 then
        ⟨[2], [4], [[1]], [[1]], fun _ => 0, fun _ => 0, 1, 1, fun x => x,
          fun x => x, fun sz => sz.headD 0⟩
      else
        ⟨[3, 4], [], [[1], [1]], [],
          fun e => if e = 3 then 0 else 1, fun _ => 0, 2, 1, fun x => x,
          fun x => x, fun sz => sz.headD 0⟩⟩

/-- Witness for C1 on the diamond graph, both directions. -/
theorem traverse_graph_visits_each_node_once_witness :
    (∃ st', runLoop egDiamond true (fun _ b => b) egDiamond.nodes.length
        ⟨[seedNode egDiamond true], fun _ => 0, fun _ => ([], []), []⟩ =
          some st' ∧
      st'.queue = [] ∧ st'.visits.Nodup ∧
      (∀ n, n ∈ st'.visits ↔ n ∈ egDiamond.nodes) ∧
      (∀ n ∈ st'.visits, st'.visits.count n = 1)) ∧
    (∃ st', runLoop egDiamond false (fun _ b => b) egDiamond.nodes.length
        ⟨[seedNode egDiamond false], fun _ => 0, fun _ => ([], []), []⟩ =
          some st' ∧
      st'.queue = [] ∧ st'.visits.Nodup ∧
      (∀ n, n ∈ st'.visits ↔ n ∈ egDiamond.nodes) ∧
      (∀ n ∈ st'.visits, st'.visits.count n = 1)) :=
  ⟨(traverse_graph_visits_each_node_once egDiamond true
      ⟨fun v => v, by decide, by decide, by decide, by decide, by decide,
        by decide, by decide, by decide⟩
      (fun _ b => b) (fun _ => ([], []))).1,
    (traverse_graph_visits_each_node_once egDiamond false
      ⟨fun v => 4 - v, by decide, by decide, by decide, by decide, by decide,
        by decide, by decide, by decide⟩
      (fun _ b => b) (fun _ => ([], []))).1⟩

/-- Witness for C2 on the diamond graph after two iterations: node 3 has
two producers, only node 1's delivery has happened, so node 3 is not in the
queue. -/
theorem enqueued_only_when_counter_full_witness :
    ((∀ n ∈ ((stepOnce egDiamond true (fun _ b => b))^[2]
        ⟨[seedNode egDiamond true], fun _ => 0, fun _ => ([], []), []⟩).queue,
      (∀ e ∈ predEdges egDiamond true n, eSrc egDiamond true e ∈
        ((stepOnce egDiamond true (fun _ b => b))^[2]
          ⟨[seedNode egDiamond true], fun _ => 0, fun _ => ([], []), []⟩).visits) ∧
      ((stepOnce egDiamond true (fun _ b => b))^[2]
        ⟨[seedNode egDiamond true], fun _ => 0, fun _ => ([], []), []⟩).em n =
        needCount egDiamond true n) ∧
    (∀ n ∈ egDiamond.nodes,
      n ∉ ((stepOnce egDiamond true (fun _ b => b))^[2]
        ⟨[seedNode egDiamond true], fun _ => 0, fun _ => ([], []), []⟩).visits →
      (n ∈ ((stepOnce egDiamond true (fun _ b => b))^[2]
        ⟨[seedNode egDiamond true], fun _ => 0, fun _ => ([], []), []⟩).queue ↔
        ((stepOnce egDiamond true (fun _ b => b))^[2]
          ⟨[seedNode egDiamond true], fun _ => 0, fun _ => ([], []), []⟩).em n =
          needCount egDiamond true n))) ∧
    (3 : Nat) ∉ ((stepOnce egDiamond true (fun _ b => b))^[2]
      ⟨[seedNode egDiamond true], fun _ => 0, fun _ => ([], []), []⟩).queue := by
  constructor
  · exact enqueued_only_when_counter_full egDiamond true
      ⟨fun v => v, by decide, by decide, by decide, by decide, by decide,
        by decide, by decide, by decide⟩
      (fun _ b => b) (fun _ => ([], [])) 2 _ rfl
  · decide


/-! ## Determinism of `forward_eval` (C8): buffer-layout invariants -/

theorem succEdges_true (g : Graph) (v : Nat) :
    succEdges g true v = (g.fao v).output_edges := rfl

theorem predEdges_true (g : Graph) (v : Nat) :
    predEdges g true v = (g.fao v).input_edges := rfl

theorem eSrc_true (g : Graph) (e : Nat) : eSrc g true e = (g.edges e).1 := rfl

theorem eDst_true (g : Graph) (e : Nat) : eDst g true e = (g.edges e).2 := rfl

theorem seedNode_true (g : Graph) : seedNode g true = g.start_node := rfl

theorem take_sum_le (l : List Nat) (i : Nat) : (l.take i).sum ≤ l.sum := by
  conv_rhs => rw [← List.take_append_drop i l]
  rw [List.sum_append]
  omega

theorem take_sum_mono (l : List Nat) (i j : Nat) (h : i ≤ j) :
    (l.take i).sum ≤ (l.take j).sum := by
  have h1 : (l.take j).take i = l.take i := by
    rw [List.take_take, min_eq_left h]
  calc (l.take i).sum = ((l.take j).take i).sum := by rw [h1]
    _ ≤ (l.take j).sum := take_sum_le _ _

theorem take_sum_succ_getD (l : List Nat) (i : Nat) (h : i < l.length) :
    (l.take (i + 1)).sum = (l.take i).sum + l.getD i 0 := by
  rw [List.sum_take_succ l i h, List.getD_eq_getElem l 0 h]

theorem mem_enum_get (l : List Nat) (p : Nat × Nat) (h : p ∈ l.enum) :
    ∃ hlt : p.1 < l.length, l.get ⟨p.1, hlt⟩ = p.2 := by
  have h1 : l[p.1]? = some p.2 := by
    obtain ⟨i, a⟩ := p
    exact List.mem_enum_iff_getElem?.mp h
  rw [List.getElem?_eq_some] at h1
  obtain ⟨hlt, hget⟩ := h1
  exact ⟨hlt, hget⟩

theorem enum_of_mem (l : List Nat) (a : Nat) (h : a ∈ l) :
    ∃ i, (i, a) ∈ l.enum := by
  rw [List.mem_iff_get] at h
  obtain ⟨⟨i, hi⟩, hget⟩ := h
  refine ⟨i, List.mem_enum_iff_getElem?.mpr ?_⟩
  rw [List.getElem?_eq_getElem hi]
  exact congrArg some hget

theorem enum_nodup_ne (l : List Nat) (hnd : l.Nodup) (p q : Nat × Nat)
    (hp : p ∈ l.enum) (hq : q ∈ l.enum) (h : p.1 ≠ q.1) : p.2 ≠ q.2 := by
  obtain ⟨hplt, hpget⟩ := mem_enum_get l p hp
  obtain ⟨hqlt, hqget⟩ := mem_enum_get l q hq
  intro heq
  apply h
  have : l.get ⟨p.1, hplt⟩ = l.get ⟨q.1, hqlt⟩ := by rw [hpget, hqget, heq]
  have := (List.Nodup.get_inj_iff hnd).mp this
  exact congrArg Fin.val this

/-- Two buffers whose lengths equal the sum of a region-length list and
which agree on every region agree everywhere. -/
theorem eq_of_segs (lens : List Nat) :
    ∀ b₁ b₂ : List Int, b₁.length = lens.sum → b₂.length = lens.sum →
      (∀ i, i < lens.length →
        bufSeg b₁ ((lens.take i).sum) (lens.getD i 0) =
          bufSeg b₂ ((lens.take i).sum) (lens.getD i 0)) →
      b₁ = b₂ := by
  induction lens with
  | nil =>
    intro b₁ b₂ h1 h2 _
    simp only [List.sum_nil] at h1 h2
    rw [List.length_eq_zero] at h1 h2
    rw [h1, h2]
  | cons l ls ih =>
    intro b₁ b₂ h1 h2 hseg
    simp only [List.sum_cons] at h1 h2
    have hhead : b₁.take l = b₂.take l := by
      have h := hseg 0 (by simp)
      simp only [List.take_zero, List.sum_nil, List.getD_cons_zero, bufSeg,
        List.drop_zero] at h
      exact h
    have htail : b₁.drop l = b₂.drop l := by
      apply ih
      · simp [h1]
      · simp [h2]
      · intro i hi
        have h := hseg (i + 1) (by simpa using hi)
        simp only [List.take_succ_cons, List.sum_cons, List.getD_cons_succ,
          bufSeg] at h ⊢
        rw [List.drop_drop, List.drop_drop]
        exact h
    calc b₁ = b₁.take l ++ b₁.drop l := (List.take_append_drop l b₁).symm
      _ = b₂.take l ++ b₂.drop l := by rw [hhead, htail]
      _ = b₂ := List.take_append_drop l b₂

/-- The per-slot element counts of a node's input list (receiver view). -/
def inLens (g : Graph) (v : Nat) : List Nat :=
  (List.range (g.fao v).input_edges.length).map (adjLen g v)

/-- The per-slot element counts of a node's output list (sender view). -/
def outLens (g : Graph) (u : Nat) : List Nat :=
  (List.range (g.fao u).output_edges.length).map (fwdLen g u)

theorem inLens_length (g : Graph) (v : Nat) :
    (inLens g v).length = (g.fao v).input_edges.length := by
  simp [inLens]

theorem outLens_length (g : Graph) (u : Nat) :
    (outLens g u).length = (g.fao u).output_edges.length := by
  simp [outLens]

theorem inLens_getD (g : Graph) (v i : Nat)
    (h : i < (g.fao v).input_edges.length) :
    (inLens g v).getD i 0 = adjLen g v i := by
  rw [List.getD_eq_getElem _ 0 (by rw [inLens_length]; exact h)]
  simp [inLens]

theorem outLens_getD (g : Graph) (u j : Nat)
    (h : j < (g.fao u).output_edges.length) :
    (outLens g u).getD j 0 = fwdLen g u j := by
  rw [List.getD_eq_getElem _ 0 (by rw [outLens_length]; exact h)]
  simp [outLens]

/-- The buffer/offset layout invariants established by `alloc_data` and
`init_offset_maps` (spec §4.2), together with the unchecked
sender/receiver equal-element-count precondition and length-correct
kernels. -/
structure Layout (g : Graph) : Prop where
  inOffset : ∀ v ∈ g.nodes, ∀ p ∈ (g.fao v).input_edges.enum,
    (g.fao v).input_offsets p.2 = ((inLens g v).take p.1).sum
  inCover : ∀ v ∈ g.nodes, v ≠ g.start_node →
    (g.fao v).input_len = (inLens g v).sum
  outOffset : ∀ u ∈ g.nodes, ∀ q ∈ (g.fao u).output_edges.enum,
    (g.fao u).output_offsets q.2 = ((outLens g u).take q.1).sum
  outCover : ∀ u ∈ g.nodes, (outLens g u).sum ≤ (g.fao u).output_len
  agree : ∀ u ∈ g.nodes, ∀ q ∈ (g.fao u).output_edges.enum,
    ∀ v ∈ g.nodes, ∀ p ∈ (g.fao v).input_edges.enum,
    p.2 = q.2 → fwdLen g u q.1 = adjLen g v p.1
  kernelLen : ∀ v ∈ g.nodes, ∀ x : List Int, x.length = (g.fao v).input_len →
    ((g.fao v).forward_kernel x).length = (g.fao v).output_len

/-- Buffers sized as allocated. -/
def LenOK (g : Graph) (s : Bufs) : Prop :=
  ∀ v ∈ g.nodes, ((s v).1).length = (g.fao v).input_len ∧
    ((s v).2).length = (g.fao v).output_len

/-- The two-run coupling: equal global input, equal outputs of visited
nodes, and equal delivered input regions. -/
structure SimR (g : Graph) (V : List Nat) (s₁ s₂ : Bufs) : Prop where
  startIn : (s₁ g.start_node).1 = (s₂ g.start_node).1
  outEq : ∀ v ∈ V, (s₁ v).2 = (s₂ v).2
  inSeg : ∀ v ∈ g.nodes, ∀ p ∈ (g.fao v).input_edges.enum,
    (g.edges p.2).1 ∈ V →
    bufSeg ((s₁ v).1) (((inLens g v).take p.1).sum) (adjLen g v p.1) =
      bufSeg ((s₂ v).1) (((inLens g v).take p.1).sum) (adjLen g v p.1)


theorem enum_mem_of_lt (l : List Nat) (i : Nat) (h : i < l.length) :
    (i, l.get ⟨i, h⟩) ∈ l.enum := by
  apply List.mem_enum_iff_getElem?.mpr
  rw [List.getElem?_eq_getElem h]
  rfl

theorem slot_unique (l : List Nat) (hnd : l.Nodup) (p q : Nat × Nat)
    (hp : p ∈ l.enum) (hq : q ∈ l.enum) (h : p.2 = q.2) : p.1 = q.1 := by
  by_contra hne
  exact enum_nodup_ne l hnd p q hp hq hne h

/-- Distinct input slots of the same node have disjoint buffer regions. -/
theorem slot_region_disjoint (g : Graph) (v i i2 : Nat) (hii : i ≠ i2)
    (hi : i < (g.fao v).input_edges.length)
    (hi2 : i2 < (g.fao v).input_edges.length) :
    ((inLens g v).take i).sum + adjLen g v i ≤ ((inLens g v).take i2).sum ∨
    ((inLens g v).take i2).sum + adjLen g v i2 ≤ ((inLens g v).take i).sum := by
  rcases Nat.lt_or_ge i i2 with h | h
  · left
    rw [← inLens_getD g v i hi,
      ← take_sum_succ_getD _ i (by rw [inLens_length]; exact hi)]
    exact take_sum_mono _ _ _ h
  · have h2 : i2 < i := by omega
    right
    rw [← inLens_getD g v i2 hi2,
      ← take_sum_succ_getD _ i2 (by rw [inLens_length]; exact hi2)]
    exact take_sum_mono _ _ _ h2

/-- Facts about one write slot `(j, e)` of a visiting node `c`: its target,
target slot, offsets and length expressed through the layout. -/
theorem write_slot_facts (g : Graph) (H : Hyps g true) (L : Layout g)
    (c : Nat) (hc : c ∈ g.nodes) (q : Nat × Nat)
    (hq : q ∈ (g.fao c).output_edges.enum) :
    ∃ p : Nat × Nat, fwdTgt g q.2 ∈ g.nodes ∧ fwdTgt g q.2 ≠ g.start_node ∧
      p ∈ (g.fao (fwdTgt g q.2)).input_edges.enum ∧ p.2 = q.2 ∧
      fwdTOff g q.2 = ((inLens g (fwdTgt g q.2)).take p.1).sum ∧
      fwdLen g c q.1 = adjLen g (fwdTgt g q.2) p.1 := by
  obtain ⟨hqlt, hqget⟩ := mem_enum_get _ q hq
  have hemem : q.2 ∈ (g.fao c).output_edges := by
    rw [← hqget]; exact List.get_mem _ _ _
  obtain ⟨hsrc, hdmem, hpred⟩ := H.succConsist c hc q.2
    (by rw [succEdges_true]; exact hemem)
  rw [eSrc_true] at hsrc
  rw [eDst_true] at hdmem
  rw [predEdges_true, eDst_true] at hpred
  have htgt : fwdTgt g q.2 = (g.edges q.2).2 := rfl
  obtain ⟨i, hpmem⟩ := enum_of_mem _ q.2 hpred
  have hne : fwdTgt g q.2 ≠ g.start_node := by
    intro hst
    have hsmem : g.start_node ∈ g.nodes := by
      have := H.seedMem
      rwa [seedNode_true] at this
    have hsempty : predEdges g true g.start_node = [] := by
      apply (H.soleSeed g.start_node hsmem).mpr
      rw [seedNode_true]
    rw [predEdges_true] at hsempty
    have hst2 : (g.edges q.2).2 = g.start_node := by rw [← htgt]; exact hst
    rw [hst2, hsempty] at hpred
    cases hpred
  refine ⟨(i, q.2), by rw [htgt]; exact hdmem, hne, by rw [htgt]; exact hpmem,
    rfl, ?_, ?_⟩
  · have := L.inOffset (fwdTgt g q.2) (by rw [htgt]; exact hdmem) (i, q.2)
      (by rw [htgt]; exact hpmem)
    exact this
  · exact L.agree c hc q hq (fwdTgt g q.2) (by rw [htgt]; exact hdmem)
      (i, q.2) (by rw [htgt]; exact hpmem) rfl

/-- Under the layout, every write of a visit is in range. -/
theorem fwd_rangeOK (g : Graph) (H : Hyps g true) (L : Layout g)
    (c : Nat) (hc : c ∈ g.nodes) (s0 : Bufs)
    (hlenT : ∀ v ∈ g.nodes, ((s0 v).1).length = (g.fao v).input_len)
    (hlenO : ((s0 c).2).length = (g.fao c).output_len) :
    OutRangeOK g c (g.fao c).output_edges.enum s0 := by
  intro q hq
  obtain ⟨p, hdmem, hdne, hpmem, hpe, hoff, hlen⟩ :=
    write_slot_facts g H L c hc q hq
  obtain ⟨hplt, _⟩ := mem_enum_get _ p hpmem
  constructor
  · rw [hoff, hlen, hlenT _ hdmem, L.inCover _ hdmem hdne]
    rw [← inLens_getD _ _ _ hplt,
      ← take_sum_succ_getD _ p.1 (by rw [inLens_length]; exact hplt)]
    exact take_sum_le _ _
  · obtain ⟨hqlt, _⟩ := mem_enum_get _ q hq
    have hnoff : fwdNOff g c q.2 = ((outLens g c).take q.1).sum :=
      L.outOffset c hc q hq
    rw [hnoff, hlenO]
    calc ((outLens g c).take q.1).sum + fwdLen g c q.1
        = ((outLens g c).take (q.1 + 1)).sum := by
          rw [take_sum_succ_getD _ q.1 (by rw [outLens_length]; exact hqlt),
            outLens_getD _ _ _ hqlt]
      _ ≤ (outLens g c).sum := take_sum_le _ _
      _ ≤ (g.fao c).output_len := L.outCover c hc

/-- Under the layout, the write regions of one visit are pairwise disjoint
on any shared target. -/
theorem fwd_writes_pairwise (g : Graph) (H : Hyps g true) (L : Layout g)
    (c : Nat) (hc : c ∈ g.nodes) :
    ((g.fao c).output_edges.enum).Pairwise (fun p q =>
      fwdTgt g p.2 = fwdTgt g q.2 →
        fwdTOff g p.2 + fwdLen g c p.1 ≤ fwdTOff g q.2 ∨
        fwdTOff g q.2 + fwdLen g c q.1 ≤ fwdTOff g p.2) := by
  have hnd : (g.fao c).output_edges.Nodup := by
    have := H.succNodup c hc
    rwa [succEdges_true] at this
  rw [List.pairwise_iff_get]
  intro a b hab
  have ha1 : ((g.fao c).output_edges.enum.get a).1 = a.val := by
    rw [List.get_eq_getElem, List.getElem_enum]
  have hb1 : ((g.fao c).output_edges.enum.get b).1 = b.val := by
    rw [List.get_eq_getElem, List.getElem_enum]
  intro htgt
  set qa := (g.fao c).output_edges.enum.get a with hqa
  set qb := (g.fao c).output_edges.enum.get b with hqb
  have hqamem : qa ∈ (g.fao c).output_edges.enum := by
    rw [hqa]; exact List.get_mem _ _ _
  have hqbmem : qb ∈ (g.fao c).output_edges.enum := by
    rw [hqb]; exact List.get_mem _ _ _
  obtain ⟨pa, hdmema, _, hpmema, hpea, hoffa, hlena⟩ :=
    write_slot_facts g H L c hc qa hqamem
  obtain ⟨pb, hdmemb, _, hpmemb, hpeb, hoffb, hlenb⟩ :=
    write_slot_facts g H L c hc qb hqbmem
  have hedge : qa.2 ≠ qb.2 := by
    apply enum_nodup_ne _ hnd qa qb hqamem hqbmem
    rw [ha1, hb1]
    intro h
    exact absurd (Fin.ext h) (Fin.ne_of_lt hab)
  have hslot : pa.1 ≠ pb.1 := by
    intro h
    obtain ⟨halt, haget⟩ := mem_enum_get _ pa hpmema
    obtain ⟨hblt, hbget⟩ := mem_enum_get _ pb (htgt ▸ hpmemb)
    apply hedge
    rw [← hpea, ← hpeb, ← haget, ← hbget]
    congr 1
    exact Fin.ext h
  obtain ⟨halt, _⟩ := mem_enum_get _ pa hpmema
  obtain ⟨hblt, _⟩ := mem_enum_get _ pb hpmemb
  have hdisj := slot_region_disjoint g (fwdTgt g qa.2) pa.1 pb.1 hslot halt
    (by rw [htgt]; exact hblt)
  rw [hoffa, hlena, hoffb, hlenb, htgt]
  rw [htgt] at hdisj
  exact hdisj


/-- One visit under the layout: lengths are preserved at their allocated
values, the start node's input is untouched, other nodes' outputs are
untouched, and the visiting node's output becomes its kernel result. -/
theorem forward_node_eval_lens (g : Graph) (H : Hyps g true) (L : Layout g)
    (c : Nat) (hc : c ∈ g.nodes) (s : Bufs) (hL : LenOK g s) :
    LenOK g (forward_node_eval g c s) ∧
    ((forward_node_eval g c s) g.start_node).1 = (s g.start_node).1 ∧
    (∀ v, v ≠ c → ((forward_node_eval g c s) v).2 = (s v).2) ∧
    ((forward_node_eval g c s) c).2 = (g.fao c).forward_kernel ((s c).1) := by
  set s0 := updateBufs s c ((s c).1, (g.fao c).forward_kernel (s c).1) with hs0
  have hfst : ∀ v, (s0 v).1 = (s v).1 := by
    intro v; by_cases hv : v = c <;> simp [hs0, updateBufs, hv]
  have hsndc : (s0 c).2 = (g.fao c).forward_kernel ((s c).1) := by
    simp [hs0, updateBufs]
  have hsndo : ∀ v, v ≠ c → (s0 v).2 = (s v).2 := by
    intro v hv; simp [hs0, updateBufs, hv]
  have hro : OutRangeOK g c (g.fao c).output_edges.enum s0 := by
    apply fwd_rangeOK g H L c hc
    · intro v hv; rw [hfst]; exact (hL v hv).1
    · rw [hsndc]; exact L.kernelLen c hc _ (hL c hc).1
  have hfe : forward_node_eval g c s =
      copyEdgesOut g c (g.fao c).output_edges.enum s0 := rfl
  refine ⟨?_, ?_, ?_, ?_⟩
  · intro v hv
    constructor
    · rw [hfe, copyEdgesOut_in_length g c _ s0 hro v, hfst]
      exact (hL v hv).1
    · rw [hfe, copyEdgesOut_out]
      by_cases hvc : v = c
      · rw [hvc, hsndc]; exact L.kernelLen c hc _ (hL c hc).1
      · rw [hsndo v hvc]; exact (hL v hv).2
  · rw [hfe, copyEdgesOut_in_untouched g c _ s0 g.start_node (fun q hq => by
      obtain ⟨p, _, hdne, _, _, _, _⟩ := write_slot_facts g H L c hc q hq
      exact hdne), hfst]
  · intro v hv
    rw [hfe, copyEdgesOut_out, hsndo v hv]
  · rw [hfe, copyEdgesOut_out, hsndc]

/-- One visit under the layout: each output slot's segment is copied onto
the destination region. -/
theorem forward_node_eval_seg (g : Graph) (H : Hyps g true) (L : Layout g)
    (c : Nat) (hc : c ∈ g.nodes) (s : Bufs) (hL : LenOK g s) :
    ∀ q ∈ (g.fao c).output_edges.enum,
      bufSeg (((forward_node_eval g c s) (fwdTgt g q.2)).1) (fwdTOff g q.2)
          (fwdLen g c q.1) =
        bufSeg ((g.fao c).forward_kernel ((s c).1)) (fwdNOff g c q.2)
          (fwdLen g c q.1) := by
  apply (forward_node_eval_spec g c s ?_ ?_).2
  · intro q hq
    obtain ⟨p, hdmem, hdne, hpmem, hpe, hoff, hlen⟩ :=
      write_slot_facts g H L c hc q hq
    obtain ⟨hplt, _⟩ := mem_enum_get _ p hpmem
    obtain ⟨hqlt, _⟩ := mem_enum_get _ q hq
    constructor
    · rw [hoff, hlen, (hL _ hdmem).1, L.inCover _ hdmem hdne,
        ← inLens_getD _ _ _ hplt,
        ← take_sum_succ_getD _ p.1 (by rw [inLens_length]; exact hplt)]
      exact take_sum_le _ _
    · rw [show fwdNOff g c q.2 = ((outLens g c).take q.1).sum from
        L.outOffset c hc q hq, L.kernelLen c hc _ (hL c hc).1]
      calc ((outLens g c).take q.1).sum + fwdLen g c q.1
          = ((outLens g c).take (q.1 + 1)).sum := by
            rw [take_sum_succ_getD _ q.1 (by rw [outLens_length]; exact hqlt),
              outLens_getD _ _ _ hqlt]
        _ ≤ (outLens g c).sum := take_sum_le _ _
        _ ≤ (g.fao c).output_len := L.outCover c hc
  · exact fwd_writes_pairwise g H L c hc

/-- A region that none of the visit's writes overlaps is left unchanged. -/
theorem visit_frame (g : Graph) (H : Hyps g true) (L : Layout g)
    (c : Nat) (hc : c ∈ g.nodes) (v : Nat) (hvmem : v ∈ g.nodes)
    (p : Nat × Nat) (hp : p ∈ (g.fao v).input_edges.enum)
    (hsrc : (g.edges p.2).1 ≠ c) (su : Bufs) (hLu : LenOK g su) :
    bufSeg (((forward_node_eval g c su) v).1)
        (((inLens g v).take p.1).sum) (adjLen g v p.1) =
      bufSeg ((su v).1) (((inLens g v).take p.1).sum) (adjLen g v p.1) := by
  obtain ⟨hplt, hpget⟩ := mem_enum_get _ p hp
  set s0 := updateBufs su c ((su c).1, (g.fao c).forward_kernel (su c).1)
    with hs0
  have hfst : ∀ w, (s0 w).1 = (su w).1 := by
    intro w; by_cases hw : w = c <;> simp [hs0, updateBufs, hw]
  have hsndc : (s0 c).2 = (g.fao c).forward_kernel ((su c).1) := by
    simp [hs0, updateBufs]
  have hro : OutRangeOK g c (g.fao c).output_edges.enum s0 := by
    apply fwd_rangeOK g H L c hc
    · intro w hw; rw [hfst]; exact (hLu w hw).1
    · rw [hsndc]; exact L.kernelLen c hc _ (hLu c hc).1
  have hfe : forward_node_eval g c su =
      copyEdgesOut g c (g.fao c).output_edges.enum s0 := rfl
  rw [hfe, copyEdgesOut_seg_frame g c _ s0 v _ _ hro ?_, hfst]
  intro q hq
  by_cases htv : fwdTgt g q.2 = v
  · obtain ⟨pq, hdmem, hdne, hpqmem, hpqe, hoff, hlen⟩ :=
      write_slot_facts g H L c hc q hq
    rw [htv] at hpqmem hoff hlen
    obtain ⟨hqlt, hqget⟩ := mem_enum_get _ q hq
    have hqe : q.2 ∈ (g.fao c).output_edges := by
      rw [← hqget]; exact List.get_mem _ _ _
    have hsrcq : (g.edges q.2).1 = c := by
      have := (H.succConsist c hc q.2 (by rw [succEdges_true]; exact hqe)).1
      rwa [eSrc_true] at this
    have hqp : q.2 ≠ p.2 := by
      intro he
      exact hsrc (by rw [← he, hsrcq])
    obtain ⟨hpqlt, hpqget⟩ := mem_enum_get _ pq hpqmem
    have hslot : pq.1 ≠ p.1 := by
      intro he
      apply hqp
      rw [← hpqe]
      rw [← hpqget, ← hpget]
      congr 1
      exact Fin.ext he
    rcases slot_region_disjoint g v pq.1 p.1 hslot hpqlt hplt with hd | hd
    · refine Or.inr (Or.inr ?_)
      rw [hoff, hlen]
      exact hd
    · refine Or.inr (Or.inl ?_)
      rw [hoff]
      exact hd
  · exact Or.inl htv

/-- The key coupling step: visiting a node whose producers are all visited
preserves the two-run relation, the buffer lengths, and each run's start
input. -/
theorem visit_sim (g : Graph) (H : Hyps g true) (L : Layout g)
    (c : Nat) (hc : c ∈ g.nodes) (V : List Nat) (hcV : c ∉ V)
    (hprod : ∀ e ∈ (g.fao c).input_edges, (g.edges e).1 ∈ V)
    (s₁ s₂ : Bufs) (hR : SimR g V s₁ s₂) (hL1 : LenOK g s₁)
    (hL2 : LenOK g s₂) :
    SimR g (V ++ [c]) (forward_node_eval g c s₁) (forward_node_eval g c s₂) ∧
    LenOK g (forward_node_eval g c s₁) ∧
    LenOK g (forward_node_eval g c s₂) ∧
    ((forward_node_eval g c s₁) g.start_node).1 = (s₁ g.start_node).1 ∧
    ((forward_node_eval g c s₂) g.start_node).1 = (s₂ g.start_node).1 := by
  have hinEq : (s₁ c).1 = (s₂ c).1 := by
    by_cases hcs : c = g.start_node
    · rw [hcs]; exact hR.startIn
    · apply eq_of_segs (inLens g c)
      · rw [(hL1 c hc).1]; exact L.inCover c hc hcs
      · rw [(hL2 c hc).1]; exact L.inCover c hc hcs
      · intro i hi
        rw [inLens_length] at hi
        have hp := enum_mem_of_lt _ i hi
        have hsrc := hprod _ (List.get_mem _ i hi)
        have hseg := hR.inSeg c hc _ hp hsrc
        rw [inLens_getD g c i hi]
        exact hseg
  have hkerEq : (g.fao c).forward_kernel ((s₁ c).1) =
      (g.fao c).forward_kernel ((s₂ c).1) := by rw [hinEq]
  obtain ⟨hLen1, hSt1, hOut1, hKer1⟩ := forward_node_eval_lens g H L c hc s₁ hL1
  obtain ⟨hLen2, hSt2, hOut2, hKer2⟩ := forward_node_eval_lens g H L c hc s₂ hL2
  refine ⟨⟨?_, ?_, ?_⟩, hLen1, hLen2, hSt1, hSt2⟩
  · rw [hSt1, hSt2]; exact hR.startIn
  · intro v hv
    rcases List.mem_append.mp hv with h | h
    · have hvc : v ≠ c := fun he => hcV (he ▸ h)
      rw [hOut1 v hvc, hOut2 v hvc]
      exact hR.outEq v h
    · rw [List.mem_singleton.mp h, hKer1, hKer2]
      exact hkerEq
  · intro v hvmem p hp hsrc
    obtain ⟨hplt, hpget⟩ := mem_enum_get _ p hp
    have hpe : p.2 ∈ (g.fao v).input_edges := by
      rw [← hpget]; exact List.get_mem _ _ _
    obtain ⟨hdst, hsmem, hsucc⟩ := H.predConsist v hvmem p.2
      (by rw [predEdges_true]; exact hpe)
    rw [eDst_true] at hdst
    rw [eSrc_true] at hsmem
    rw [succEdges_true, eSrc_true] at hsucc
    rcases List.mem_append.mp hsrc with hsV | hsc
    · have hsne : (g.edges p.2).1 ≠ c := fun he => hcV (he ▸ hsV)
      rw [visit_frame g H L c hc v hvmem p hp hsne s₁ hL1,
        visit_frame g H L c hc v hvmem p hp hsne s₂ hL2]
      exact hR.inSeg v hvmem p hp hsV
    · have hsc2 : (g.edges p.2).1 = c := List.mem_singleton.mp hsc
      rw [hsc2] at hsucc
      obtain ⟨j, hjmem⟩ := enum_of_mem _ p.2 hsucc
      have hvt : fwdTgt g p.2 = v := hdst
      obtain ⟨pw, hdmem, hdne, hpwmem, hpwe, hoffw, hlenw⟩ :=
        write_slot_facts g H L c hc (j, p.2) hjmem
      rw [hvt] at hpwmem hoffw hlenw
      have hnd : (g.fao v).input_edges.Nodup := by
        have := H.predNodup v hvmem
        rwa [predEdges_true] at this
      have hpw1 : pw.1 = p.1 := slot_unique _ hnd pw p hpwmem hp hpwe
      rw [hpw1] at hoffw hlenw
      have hseg1 := forward_node_eval_seg g H L c hc s₁ hL1 (j, p.2) hjmem
      have hseg2 := forward_node_eval_seg g H L c hc s₂ hL2 (j, p.2) hjmem
      rw [hvt] at hseg1 hseg2
      rw [← hoffw, ← hlenw, hseg1, hseg2, hkerEq]


/-- Two runs of the forward traversal loop from the same scheduler state
and coupled buffers stay coupled: the second run succeeds with the same
schedule, the relation holds at the final visit list, buffer lengths stay
at their allocated values, and each run leaves its start input unchanged. -/
theorem runLoop_sim (g : Graph) (H : Hyps g true) (L : Layout g) :
    ∀ fuel q em V s₁ s₂, Inv g true ⟨q, em, s₁, V⟩ →
      SimR g V s₁ s₂ → LenOK g s₁ → LenOK g s₂ →
      ∀ st₁, runLoop g true (forward_node_eval g) fuel ⟨q, em, s₁, V⟩ =
          some st₁ →
        ∃ st₂, runLoop g true (forward_node_eval g) fuel ⟨q, em, s₂, V⟩ =
            some st₂ ∧
          st₂.queue = st₁.queue ∧ st₂.em = st₁.em ∧ st₂.visits = st₁.visits ∧
          SimR g st₁.visits st₁.bufs st₂.bufs ∧
          LenOK g st₁.bufs ∧ LenOK g st₂.bufs ∧
          (st₁.bufs g.start_node).1 = (s₁ g.start_node).1 ∧
          (st₂.bufs g.start_node).1 = (s₂ g.start_node).1 := by
  intro fuel
  induction fuel with
  | zero =>
    intro q em V s₁ s₂ hInv hR hL1 hL2 st₁ h
    cases q with
    | nil =>
      simp only [runLoop] at h
      injection h with h2
      subst h2
      exact ⟨⟨[], em, s₂, V⟩, by simp [runLoop], rfl, rfl, rfl, hR, hL1, hL2,
        rfl, rfl⟩
    | cons c rest => simp [runLoop] at h
  | succ n ih =>
    intro q em V s₁ s₂ hInv hR hL1 hL2 st₁ h
    cases q with
    | nil =>
      simp only [runLoop] at h
      injection h with h2
      subst h2
      exact ⟨⟨[], em, s₂, V⟩, by simp [runLoop], rfl, rfl, rfl, hR, hL1, hL2,
        rfl, rfl⟩
    | cons c rest =>
      simp only [runLoop] at h
      have hcmem : c ∈ g.nodes := hInv.qMem c (List.mem_cons_self _ _)
      have hcnv : c ∉ V := fun hv => hInv.disj c ⟨hv, List.mem_cons_self _ _⟩
      have hprod : ∀ e ∈ (g.fao c).input_edges, (g.edges e).1 ∈ V := by
        intro e he
        have := (hInv.qIff c hcmem hcnv).mp (List.mem_cons_self _ _) e
          (by rw [predEdges_true]; exact he)
        rwa [eSrc_true] at this
      obtain ⟨hSim', hL1', hL2', hSt1', hSt2'⟩ :=
        visit_sim g H L c hcmem V hcnv hprod s₁ s₂ hR hL1 hL2
      have hInv' :=
        (stepOnce_inv g true H (forward_node_eval g) c rest em s₁ V hInv).1
      have hstep1 : stepOnce g true (forward_node_eval g)
          ⟨c :: rest, em, s₁, V⟩ =
          ⟨(processEdges g true (succEdges g true c) (bump em c) rest).2,
           (processEdges g true (succEdges g true c) (bump em c) rest).1,
           forward_node_eval g c s₁, V ++ [c]⟩ := rfl
      have hstep2 : stepOnce g true (forward_node_eval g)
          ⟨c :: rest, em, s₂, V⟩ =
          ⟨(processEdges g true (succEdges g true c) (bump em c) rest).2,
           (processEdges g true (succEdges g true c) (bump em c) rest).1,
           forward_node_eval g c s₂, V ++ [c]⟩ := rfl
      rw [hstep1] at hInv' h
      obtain ⟨st₂, hrun₂, hq₂, hem₂, hv₂, hSimF, hLF1, hLF2, hStF1, hStF2⟩ :=
        ih (processEdges g true (succEdges g true c) (bump em c) rest).2
          (processEdges g true (succEdges g true c) (bump em c) rest).1
          (V ++ [c]) (forward_node_eval g c s₁) (forward_node_eval g c s₂)
          hInv' hSim' hL1' hL2' st₁ h
      refine ⟨st₂, ?_, hq₂, hem₂, hv₂, hSimF, hLF1, hLF2, ?_, ?_⟩
      · simp only [runLoop]
        rw [hstep2]
        exact hrun₂
      · rw [hStF1, hSt1']
      · rw [hStF2, hSt2']

/-- C8: under the scheduling and buffer-layout invariants, a `forward_eval`
call from a quiescent instance succeeds with `nodes.length` fuel, leaves
the content of the global input buffer unchanged and every node buffer at
its original length (so no call grows any allocated buffer), and a second
call from the resulting instance succeeds and produces bit-identical
content in the global output buffer. -/
theorem forward_eval_idempotent (g : Graph) (H : Hyps g true) (L : Layout g)
    (hend : g.end_node ∈ g.nodes) (t₁ t₂ : ℚ) (inst : Inst)
    (hq : inst.ready_queue = []) (hem : inst.eval_map = fun _ => 0)
    (hLen : LenOK g inst.bufs) :
    ∃ i₁ i₂,
      forward_eval g g.nodes.length t₁ inst = some i₁ ∧
      forward_eval g g.nodes.length t₂ i₁ = some i₂ ∧
      (i₁.bufs g.start_node).1 = (inst.bufs g.start_node).1 ∧
      (i₂.bufs g.end_node).2 = (i₁.bufs g.end_node).2 ∧
      (∀ v ∈ g.nodes, ((i₁.bufs v).1).length = ((inst.bufs v).1).length ∧
        ((i₁.bufs v).2).length = ((inst.bufs v).2).length) ∧
      (∀ v ∈ g.nodes, ((i₂.bufs v).1).length = ((inst.bufs v).1).length ∧
        ((i₂.bufs v).2).length = ((inst.bufs v).2).length) := by
  obtain ⟨st1, hrun1, hq1, hInv1, hall1, -⟩ :=
    runLoop_complete g true H (forward_node_eval g) g.nodes.length
      ⟨[seedNode g true], fun _ => 0, inst.bufs, []⟩
      (inv_init g true H inst.bufs) (by simp)
  have hRrefl : SimR g [] inst.bufs inst.bufs :=
    ⟨rfl, fun v hv => absurd hv (List.not_mem_nil v),
      fun v _ p _ hsrc => absurd hsrc (List.not_mem_nil _)⟩
  obtain ⟨st1x, hrun1x, hqx, hemx, hvx, hSimx, hLst1, hLst1x, hStPres, hStPx⟩ :=
    runLoop_sim g H L g.nodes.length [seedNode g true] (fun _ => 0) []
      inst.bufs inst.bufs (inv_init g true H inst.bufs) hRrefl hLen hLen
      st1 hrun1
  have hR01 : SimR g [] inst.bufs st1.bufs :=
    ⟨hStPres.symm, fun v hv => absurd hv (List.not_mem_nil v),
      fun v _ p _ hsrc => absurd hsrc (List.not_mem_nil _)⟩
  obtain ⟨st2, hrun2, hq2, hem2, hv2, hSimF, hLF1, hLst2, hStG1, hStG2⟩ :=
    runLoop_sim g H L g.nodes.length [seedNode g true] (fun _ => 0) []
      inst.bufs st1.bufs (inv_init g true H inst.bufs) hR01 hLen hLst1
      st1 hrun1
  have hrun1' : runLoop g true (forward_node_eval g) g.nodes.length
      ⟨inst.ready_queue ++ [seedNode g true], inst.eval_map, inst.bufs, []⟩ =
        some st1 := by
    rw [hq, hem]
    exact hrun1
  have h1 := forward_eval_intro g g.nodes.length t₁ inst st1 hrun1'
  set i₁ : Inst := { inst with
    ready_queue := st1.queue
    eval_map := fun _ => 0
    bufs := st1.bufs
    forward_evals := inst.forward_evals + 1
    total_forward_eval_time := inst.total_forward_eval_time + t₁ } with hi₁
  have hrun2' : runLoop g true (forward_node_eval g) g.nodes.length
      ⟨i₁.ready_queue ++ [seedNode g true], i₁.eval_map, i₁.bufs, []⟩ =
        some st2 := by
    show runLoop g true (forward_node_eval g) g.nodes.length
      ⟨st1.queue ++ [seedNode g true], fun _ => 0, st1.bufs, []⟩ = some st2
    rw [hq1]
    exact hrun2
  have h2 := forward_eval_intro g g.nodes.length t₂ i₁ st2 hrun2'
  refine ⟨i₁, _, h1, h2, ?_, ?_, ?_, ?_⟩
  · exact hStPres
  · exact (hSimF.outEq g.end_node (hall1 g.end_node hend)).symm
  · intro v hv
    exact ⟨(hLst1 v hv).1.trans ((hLen v hv).1).symm,
      (hLst1 v hv).2.trans ((hLen v hv).2).symm⟩
  · intro v hv
    exact ⟨(hLst2 v hv).1.trans ((hLen v hv).1).symm,
      (hLst2 v hv).2.trans ((hLen v hv).2).symm⟩

/-- The scheduling invariants hold for the concrete pair graph. -/
def egPair_hyps : Hyps egPair true :=
  ⟨fun v => v, by decide, by decide, by decide, by decide, by decide,
    by decide, by decide, by decide⟩

/-- The buffer-layout invariants hold for the concrete pair graph. -/
theorem egPair_layout : Layout egPair := by
  refine ⟨by decide, by decide, by decide, by decide, by decide, ?_⟩
  intro v hv x hx
  have hv2 : v = 0 ∨ v = 1 := by
    have hv' : v ∈ [0, 1] := hv
    simpa using hv'
  rcases hv2 with h | h
  · subst h; rfl
  · subst h; exact hx

/-- The instance `egInst` has its buffers at the allocated lengths of
`egPair`. -/
theorem egPair_lenOK : LenOK egPair egInst.bufs := by
  intro v hv
  have hv2 : v = 0 ∨ v = 1 := by
    have hv' : v ∈ [0, 1] := hv
    simpa using hv'
  rcases hv2 with h | h <;> subst h <;> exact ⟨rfl, rfl⟩

theorem forward_eval_idempotent_witness :
    ∃ i₁ i₂,
      forward_eval egPair 2 0 egInst = some i₁ ∧
      forward_eval egPair 2 0 i₁ = some i₂ ∧
      (i₁.bufs 0).1 = (egInst.bufs 0).1 ∧
      (i₂.bufs 1).2 = (i₁.bufs 1).2 ∧
      (∀ v ∈ egPair.nodes, ((i₁.bufs v).1).length = ((egInst.bufs v).1).length ∧
        ((i₁.bufs v).2).length = ((egInst.bufs v).2).length) ∧
      (∀ v ∈ egPair.nodes, ((i₂.bufs v).1).length = ((egInst.bufs v).1).length ∧
        ((i₂.bufs v).2).length = ((egInst.bufs v).2).length) :=
  forward_eval_idempotent egPair egPair_hyps egPair_layout (by decide) 0 0
    egInst rfl rfl egPair_lenOK

end FAODag
